import Mathlib

/-!
# Stock dashboard: portfolio reconciliation

A shallow embedding of `client/src/Dashboard.js`.

The file holds three successive versions of the `Dashboard` component.  The two
earlier ones (kept in block comments, lines 1-331 and 332-762) contain
`normalizePortfolio`, `recalcPortfolioWithPrices` and the socket handlers that
merge price updates and recompute the portfolio; their definitions of these
functions and handlers coincide up to presentation side effects.  The third,
active one (lines 763-967) stores every pushed payload as received.

Modelling conventions.

* A JavaScript number is the rational it denotes (`ℚ`).  Every arithmetic
  operation `+`, `-`, `*`, `/` returns the exact result rounded to the nearest
  binary64 number, ties to the even significand (`fl`); the exponent range is
  taken as unbounded, so overflow and subnormal numbers are outside the model.
  `NaN` and the infinities appear only in the trending computation, whose
  division may have a zero divisor (`JsNum`).
* A property that may be missing (or `null`) is an `Option`; a property that a
  portfolio view always carries is a plain value.
* An object used as a map is the list of its entries in enumeration order
  (`Object.entries`), looked up by key with `List.lookup`.
-/

namespace Dashboard

/-! ## JavaScript operators on numbers -/

/-- The decimal that `x.toFixed(2)` prints, as a number:
`Number.prototype.toFixed` negates a negative argument, takes the integer `n`
with `n / 100` closest to its exact value (the larger `n` on a tie) and prints
`n / 100`.  (For `x ≥ 1e21` `toFixed` prints the number itself; every double of
that size is an integer, which the rounding leaves unchanged too.) -/
def round2 (x : ℚ) : ℚ :=
  if 0 ≤ x then ((⌊x * 100 + 1 / 2⌋ : ℤ) : ℚ) / 100
  else -(((⌊-x * 100 + 1 / 2⌋ : ℤ) : ℚ) / 100)

/-- Rounding to the nearest integer, a tie going to the even one. -/
def roundHalfEven (y : ℚ) : ℤ :=
  if y - (⌊y⌋ : ℤ) < 1 / 2 then ⌊y⌋
  else if 1 / 2 < y - (⌊y⌋ : ℤ) then ⌊y⌋ + 1
  else if ⌊y⌋ % 2 = 0 then ⌊y⌋ else ⌊y⌋ + 1

/-- Rounding to binary64: a non-zero `x` with `2 ^ k ≤ |x| < 2 ^ (k + 1)` is
scaled by `2 ^ (k - 52)` to a number between `2 ^ 52` and `2 ^ 53`, rounded to
the nearest integer (ties to even) and scaled back. -/
def fl (x : ℚ) : ℚ :=
  if x = 0 then 0
  else (roundHalfEven (x / (2 : ℚ) ^ (Int.log 2 |x| - 52)) : ℚ)
    * (2 : ℚ) ^ (Int.log 2 |x| - 52)

/-- The operator `+` on numbers. -/
def fadd (a b : ℚ) : ℚ := fl (a + b)

/-- The operator `-` on numbers. -/
def fsub (a b : ℚ) : ℚ := fl (a - b)

/-- The operator `*` on numbers. -/
def fmul (a b : ℚ) : ℚ := fl (a * b)

/-- The operator `/` on numbers, for a non-zero divisor. -/
def fdiv (a b : ℚ) : ℚ := fl (a / b)

/-- The expression `+(x.toFixed(2))`: the decimal printed by `toFixed(2)` is
read back as the nearest binary64 number. -/
def plusToFixed2 (x : ℚ) : ℚ := fl (round2 x)

/-- The expression `x || 0` on a number `x`: the falsy number `0` is replaced by
`0`, every other number is kept. -/
def orZero (x : ℚ) : ℚ := if x = 0 then 0 else x

/-- The expression `x || 0` on a property that may be missing: `undefined`,
`null` and `0` are falsy. -/
def optOrZero : Option ℚ → ℚ
  | none => 0
  | some x => orZero x

/-- The expression `x ?? d`: only `undefined` and `null` are replaced. -/
def nullish (x : Option ℚ) (d : ℚ) : ℚ :=
  match x with
  | none => d
  | some v => v

/-! ## Data model -/

/-- A price map `{ ticker: price }`. -/
abbrev PriceMap := List (String × ℚ)

/-- A holding of a portfolio view: the object built by `normalizePortfolio`
(lines 28-34) and rebuilt by `recalcPortfolioWithPrices` (lines 58-62). -/
structure Holding where
  ticker : String
  qty : ℚ
  avg_cost : ℚ
  current_price : ℚ
  unrealized : ℚ
  deriving DecidableEq, Repr

/-- A portfolio view `{ cash, realized, holdings, unrealized }` (line 49). -/
structure Portfolio where
  cash : ℚ
  realized : ℚ
  holdings : List Holding
  unrealized : ℚ
  deriving DecidableEq, Repr

/-! ## `recalcPortfolioWithPrices` (lines 53-70 and 391-404) -/

/-- The callback of `.map` in `recalcPortfolioWithPrices` (lines 55-63):
`currentPrice = prices[h.ticker] ?? (h.current_price ?? 0)`, where a view's
`current_price` is always present;
`unrealized = +(((currentPrice - (h.avg_cost || 0)) * h.qty).toFixed(2))`;
the result is `{ ...h, current_price: Number(currentPrice), unrealized }`. -/
def recalcHolding (prices : PriceMap) (h : Holding) : Holding :=
  let currentPrice := nullish (prices.lookup h.ticker) h.current_price
  let unrealized := plusToFixed2 (fmul (fsub currentPrice (orZero h.avg_cost)) h.qty)
  { h with current_price := currentPrice, unrealized := unrealized }

/-- The reducer `(s, h) => s + (Number(h.unrealized) || 0)` of lines 64 and 47. -/
def addUnrealized (s : ℚ) (h : Holding) : ℚ := fadd s (orZero h.unrealized)

/-- The function `recalcPortfolioWithPrices(portfolio, prices)` on a portfolio
view (an object, so the guard `if (!portfolio) return portfolio` does not fire
and `portfolio.holdings || []` is `portfolio.holdings`):
the holdings are mapped through `recalcHolding`, their `unrealized` values are
summed by `reduce` from `0`, and the result is
`{ ...portfolio, holdings, unrealized: +unrealizedTotal.toFixed(2) }`. -/
def recalcPortfolioWithPrices (portfolio : Portfolio) (prices : PriceMap) : Portfolio :=
  let holdings := portfolio.holdings.map (recalcHolding prices)
  let unrealizedTotal := holdings.foldl addUnrealized 0
  { portfolio with holdings := holdings, unrealized := plusToFixed2 unrealizedTotal }

/-! ## `normalizePortfolio` (lines 23-50 and 361-388) -/

/-- An entry of a snapshot's `holdings` array as received: every numeric
property may be missing or `null`. -/
structure RawHolding where
  ticker : String
  qty : Option ℚ
  avg_cost : Option ℚ
  current_price : Option ℚ
  unrealized : Option ℚ
  deriving DecidableEq, Repr

/-- The `holdings` property of a snapshot: an array of entries
(`Array.isArray`), a plain object `{ ticker: qty }` given by its
`Object.entries`, or neither (missing, `null` or a primitive). -/
inductive RawHoldings where
  | absent
  | seq (entries : List RawHolding)
  | map (entries : List (String × Option ℚ))
  deriving DecidableEq, Repr

/-- A portfolio snapshot as received from the server. -/
structure RawSnapshot where
  cash : Option ℚ
  realized : Option ℚ
  holdings : RawHoldings
  unrealized : Option ℚ
  deriving DecidableEq, Repr

/-- The callback of lines 28-34: `{ ticker: h.ticker, qty: Number(h.qty || 0),
avg_cost: Number(h.avg_cost || 0), current_price: Number(h.current_price || 0),
unrealized: Number(h.unrealized || 0) }`. -/
def normalizeHolding (h : RawHolding) : Holding :=
  { ticker := h.ticker
    qty := optOrZero h.qty
    avg_cost := optOrZero h.avg_cost
    current_price := optOrZero h.current_price
    unrealized := optOrZero h.unrealized }

/-- The callback of lines 36-42 on an entry `[ticker, qty]`:
`{ ticker, qty: Number(qty || 0), avg_cost: 0, current_price: 0, unrealized: 0 }`. -/
def normalizeEntry (e : String × Option ℚ) : Holding :=
  { ticker := e.1
    qty := optOrZero e.2
    avg_cost := 0
    current_price := 0
    unrealized := 0 }

/-- The branches of lines 26-43 that build `holdings`. -/
def normalizeHoldings : RawHoldings → List Holding
  | RawHoldings.seq entries => entries.map normalizeHolding
  | RawHoldings.map entries => entries.map normalizeEntry
  | RawHoldings.absent => []

/-- The function `normalizePortfolio(portfolio)`; `none` is a falsy argument
(line 24).  `cash` and `realized` are `Number(portfolio.cash ?? 0)` and
`Number(portfolio.realized ?? 0)`; `unrealized` is `portfolio.unrealized` when
present and otherwise the `reduce` sum over the normalized holdings. -/
def normalizePortfolio : Option RawSnapshot → Portfolio
  | none => { cash := 0, realized := 0, holdings := [], unrealized := 0 }
  | some portfolio =>
    let holdings := normalizeHoldings portfolio.holdings
    let cash := nullish portfolio.cash 0
    let realized := nullish portfolio.realized 0
    let unrealized := nullish portfolio.unrealized (holdings.foldl addUnrealized 0)
    { cash := cash, realized := realized, holdings := holdings, unrealized := unrealized }

/-- A holding of a view read back as a snapshot entry: every property present. -/
def Holding.toRaw (h : Holding) : RawHolding :=
  { ticker := h.ticker
    qty := some h.qty
    avg_cost := some h.avg_cost
    current_price := some h.current_price
    unrealized := some h.unrealized }

/-- A portfolio view read back as a snapshot: the object returned by
`normalizePortfolio`, whose `holdings` is an array. -/
def Portfolio.toRaw (p : Portfolio) : RawSnapshot :=
  { cash := some p.cash
    realized := some p.realized
    holdings := RawHoldings.seq (p.holdings.map Holding.toRaw)
    unrealized := some p.unrealized }

/-! ## The socket handlers of the two earlier versions (lines 103-141, 514-558) -/

/-- One property assignment `m[k] = v` on a price map: an existing key keeps
its place and takes the new value, a new key is appended. -/
def setPrice : PriceMap → String → ℚ → PriceMap
  | [], k, v => [(k, v)]
  | (k', v') :: rest, k, v =>
    if k' = k then (k, v) :: rest else (k', v') :: setPrice rest k v

/-- The object spread `{ ...prevPrices, ...payload }` (lines 106 and 525): a
copy of `prevPrices` to which every entry of `payload` is assigned in order. -/
def mergePrices (prevPrices payload : PriceMap) : PriceMap :=
  payload.foldl (fun acc e => setPrice acc e.1 e.2) prevPrices

/-- The state read and written by the socket handlers.  `prices` and
`portfolio` are the React state cells.  `effectPrices` is the constant `prices`
of the render in which the effect of lines 88-176 ran: the handlers are created
inside that effect, whose dependency list is `[token, selectedTicker]`, so the
identifier `prices` in the `portfolioUpdate` handler (line 139) denotes that
render's value and not the cell's current content. -/
structure LegacyState where
  prices : PriceMap
  portfolio : Portfolio
  effectPrices : PriceMap
  deriving DecidableEq, Repr

/-- The state at mount: `useState({})` for the prices and
`useState({ cash:0, realized:0, holdings: [], unrealized:0 })` for the portfolio
(lines 78-79); the effect runs in this first render. -/
def LegacyState.mount : LegacyState :=
  { prices := []
    portfolio := { cash := 0, realized := 0, holdings := [], unrealized := 0 }
    effectPrices := [] }

/-- The pushed events handled at lines 103-141.  A price payload that is falsy
or not an object is `none`. -/
inductive LegacyEvent where
  | stockUpdate (payload : Option PriceMap)
  | prices (all : Option PriceMap)
  | portfolioUpdate (p : Option RawSnapshot)
  deriving DecidableEq, Repr

/-- The handlers of lines 103-111 (`stockUpdate`), 114-119 (`prices`) and
136-141 (`portfolioUpdate`).  The state updaters passed to `setPrices` and
`setPortfolio` receive the current cell contents. -/
def legacyStep (s : LegacyState) : LegacyEvent → LegacyState
  | LegacyEvent.stockUpdate none => s
  | LegacyEvent.stockUpdate (some payload) =>
    let updated := mergePrices s.prices payload
    { s with prices := updated, portfolio := recalcPortfolioWithPrices s.portfolio updated }
  | LegacyEvent.prices none => s
  | LegacyEvent.prices (some all) =>
    { s with prices := all, portfolio := recalcPortfolioWithPrices s.portfolio all }
  | LegacyEvent.portfolioUpdate p =>
    let norm := normalizePortfolio p
    let withCurrent := recalcPortfolioWithPrices norm s.effectPrices
    { s with portfolio := withCurrent }

/-- The events are processed one at a time in arrival order. -/
def legacyRun (s : LegacyState) (es : List LegacyEvent) : LegacyState :=
  es.foldl legacyStep s

/-- A price event (`stockUpdate` or `prices`). -/
def LegacyEvent.isPrice : LegacyEvent → Bool
  | LegacyEvent.portfolioUpdate _ => false
  | _ => true

/-- A price event whose payload passes the object check. -/
def LegacyEvent.isAccepted : LegacyEvent → Bool
  | LegacyEvent.stockUpdate (some _) => true
  | LegacyEvent.prices (some _) => true
  | _ => false

/-- The snapshot of the last `portfolioUpdate` event of a sequence, if any. -/
def lastSnapshot : List LegacyEvent → Option (Option RawSnapshot)
  | [] => none
  | e :: es =>
    match lastSnapshot es with
    | some p => some p
    | none =>
      match e with
      | LegacyEvent.portfolioUpdate p => some p
      | _ => none

/-! ## The socket handlers of the active version (lines 808-810) -/

/-- The state cells `prices`, `history` and `portfolio` of lines 784-786;
`portfolio` starts as `null`. -/
structure ActiveState where
  prices : PriceMap
  history : List (String × List ℚ)
  portfolio : Option RawSnapshot
  deriving DecidableEq, Repr

/-- The pushed events subscribed at lines 808-810. -/
inductive ActiveEvent where
  | stockUpdate (payload : PriceMap)
  | historyUpdate (payload : List (String × List ℚ))
  | portfolioUpdate (p : Option RawSnapshot)
  deriving DecidableEq, Repr

/-- The handlers `socket.on("stockUpdate", setPrices)`,
`socket.on("historyUpdate", setHistory)` and
`socket.on("portfolioUpdate", setPortfolio)`: each payload becomes the new
content of its cell. -/
def activeStep (s : ActiveState) : ActiveEvent → ActiveState
  | ActiveEvent.stockUpdate payload => { s with prices := payload }
  | ActiveEvent.historyUpdate payload => { s with history := payload }
  | ActiveEvent.portfolioUpdate p => { s with portfolio := p }

/-- The events are processed one at a time in arrival order. -/
def activeRun (s : ActiveState) (es : List ActiveEvent) : ActiveState :=
  es.foldl activeStep s

/-- The snapshot of the last `portfolioUpdate` event of a sequence, if any. -/
def lastActiveSnapshot : List ActiveEvent → Option (Option RawSnapshot)
  | [] => none
  | e :: es =>
    match lastActiveSnapshot es with
    | some p => some p
    | none =>
      match e with
      | ActiveEvent.portfolioUpdate p => some p
      | _ => none

/-! ## The trending computation of the active version (lines 816-833) -/

/-- A history object `{ ticker: [price, ...] }`. -/
abbrev HistoryMap := List (String × List ℚ)

/-- The result of a JavaScript division whose divisor may be zero: a finite
number, `Infinity`, `-Infinity` or `NaN`.  The samples themselves are finite. -/
inductive JsNum where
  | fin (q : ℚ)
  | posInf
  | negInf
  | nan
  deriving DecidableEq, Repr

/-- The quotient `a / b` of two finite numbers: a zero divisor gives `Infinity`
for a positive dividend, `-Infinity` for a negative one and `NaN` for `0 / 0`;
a non-zero divisor gives the rounded quotient. -/
def jsDiv (a b : ℚ) : JsNum :=
  if b = 0 then
    if 0 < a then JsNum.posInf else if a < 0 then JsNum.negInf else JsNum.nan
  else JsNum.fin (fdiv a b)

/-- The product `x * 100`: the infinities and `NaN` are kept. -/
def JsNum.times100 : JsNum → JsNum
  | JsNum.fin q => JsNum.fin (fmul q 100)
  | JsNum.posInf => JsNum.posInf
  | JsNum.negInf => JsNum.negInf
  | JsNum.nan => JsNum.nan

/-- The comparison `x > y`: false whenever an operand is `NaN`. -/
def JsNum.gt : JsNum → JsNum → Bool
  | JsNum.nan, _ => false
  | _, JsNum.nan => false
  | JsNum.posInf, JsNum.posInf => false
  | JsNum.posInf, _ => true
  | JsNum.negInf, _ => false
  | JsNum.fin _, JsNum.posInf => false
  | JsNum.fin _, JsNum.negInf => true
  | JsNum.fin a, JsNum.fin b => decide (b < a)

/-- The method call `x.toFixed(2)`; the decimal string is represented by the
number it prints (`"10.00"` by `10`), and `Infinity`, `-Infinity` and `NaN`
print as themselves. -/
def JsNum.toFixed2 : JsNum → JsNum
  | JsNum.fin q => JsNum.fin (round2 q)
  | JsNum.posInf => JsNum.posInf
  | JsNum.negInf => JsNum.negInf
  | JsNum.nan => JsNum.nan

/-- The constant `TICKERS` of line 779. -/
def TICKERS : List String := ["GOOG", "TSLA", "AMZN", "META", "NVDA"]

/-- The object `{ ticker: best, pct: bestPct.toFixed(2) }` of line 832. -/
structure TrendSignal where
  ticker : String
  pct : JsNum
  deriving DecidableEq, Repr

/-- The callback of `TICKERS.forEach` (lines 820-830) as a function of the
variables `best` and `bestPct`: an instrument without a series or with fewer
than 6 samples returns early; otherwise `old = h[h.length - 6]`,
`cur = h[h.length - 1]`, `pct = ((cur - old) / old) * 100`, and `pct > bestPct`
assigns both variables. -/
def trendStep (history : HistoryMap) (acc : Option String × JsNum) (t : String) :
    Option String × JsNum :=
  match history.lookup t with
  | none => acc
  | some h =>
    if h.length < 6 then acc
    else
      let old := h.getD (h.length - 6) 0
      let cur := h.getD (h.length - 1) 0
      let pct := (jsDiv (fsub cur old) old).times100
      if pct.gt acc.2 then (some t, pct) else acc

/-- The computation of lines 816-833 over a list of instruments: `best = null`
and `bestPct = 0` are updated by `trendStep` in list order, and the result is
`best ? { ticker: best, pct: bestPct.toFixed(2) } : null`, where the empty
string is falsy. -/
def trendingOver (tickers : List String) (history : HistoryMap) : Option TrendSignal :=
  let r := tickers.foldl (trendStep history) (none, JsNum.fin 0)
  match r.1 with
  | none => none
  | some best => if best = "" then none else some ⟨best, r.2.toFixed2⟩

/-- The constant `trending` of line 816, computed over `TICKERS`. -/
def trending (history : HistoryMap) : Option TrendSignal := trendingOver TICKERS history

/-- The percent change that the loop computes for an instrument it does not
skip by the length check. -/
def loopPercent (history : HistoryMap) (t : String) : Option JsNum :=
  match history.lookup t with
  | none => none
  | some h =>
    if h.length < 6 then none
    else some (jsDiv (fsub (h.getD (h.length - 1) 0) (h.getD (h.length - 6) 0))
      (h.getD (h.length - 6) 0)).times100

/-- The percent change that the loop computes for a qualifying instrument (a
series of at least 6 samples with `old ≠ 0`): the expression
`((cur - old) / old) * 100`, each operation rounded to binary64. -/
def doublePercent (history : HistoryMap) (t : String) : Option ℚ :=
  match history.lookup t with
  | none => none
  | some h =>
    if h.length < 6 then none
    else if h.getD (h.length - 6) 0 = 0 then none
    else some (fmul (fdiv (fsub (h.getD (h.length - 1) 0) (h.getD (h.length - 6) 0))
      (h.getD (h.length - 6) 0)) 100)

/-- The percent change of a qualifying instrument in the words of the
specification: the series has at least 6 samples, `old = series[length - 6]`
is not `0`, `cur = series[length - 1]`, and the value is
`(cur - old) / old * 100`, here in exact arithmetic. -/
def specPercent (history : HistoryMap) (t : String) : Option ℚ :=
  match history.lookup t with
  | none => none
  | some series =>
    if series.length < 6 then none
    else if series.getD (series.length - 6) 0 = 0 then none
    else some ((series.getD (series.length - 1) 0 - series.getD (series.length - 6) 0)
      / series.getD (series.length - 6) 0 * 100)

/-! ## The `historyUpdate` handler of the two earlier versions (lines 127-134, 538-543) -/

/-- The state cells `selectedTicker` and `history` of lines 80-81: the chart
keeps the series of the selected instrument only. -/
structure LegacyChart where
  selectedTicker : String
  history : List ℚ
  deriving DecidableEq, Repr

/-- The handler of lines 127-134.  A payload that is falsy or not an object is
`none`; its values are arrays, so `Array.isArray(payload[selectedTicker])`
holds for a present entry, and the empty string is a falsy `selectedTicker`. -/
def legacyHistoryUpdate (s : LegacyChart) : Option HistoryMap → LegacyChart
  | none => s
  | some payload =>
    if s.selectedTicker = "" then s
    else
      match payload.lookup s.selectedTicker with
      | none => s
      | some series => { s with history := series }

/-! ## `doTrade` of the two earlier versions (lines 184-204, 604-623) -/

/-- The body `{ type, ticker: selectedTicker, qty: q }` posted to `/trade`. -/
structure TradeRequest where
  type : String
  ticker : String
  qty : ℚ
  deriving DecidableEq, Repr

/-- The state read and written by `doTrade` before its first `await`.  `qty`
is the value of `Number(qty)`, `none` when it is not a finite number. -/
structure TradePanel where
  selectedTicker : String
  qty : Option ℚ
  tradeMsg : String
  portfolio : Portfolio
  deriving DecidableEq, Repr

/-- The state after the synchronous part of `doTrade` and the request it
issues, if any. -/
structure TradeStart where
  panel : TradePanel
  request : Option TradeRequest
  deriving DecidableEq, Repr

/-- The test `Number.isInteger(q)` on a finite number. -/
def isInteger (q : ℚ) : Bool := decide (((⌊q⌋ : ℤ) : ℚ) = q)

/-- The function `doTrade(type)` up to the call of `fetch` (lines 185-189):
`setTradeMsg('')`, then the guard
`!selectedTicker || !Number.isInteger(q) || q <= 0`, which sets the message
`'Invalid quantity'` and returns, and otherwise the request to `/trade`. -/
def doTrade (s : TradePanel) (type : String) : TradeStart :=
  let cleared := { s with tradeMsg := "" }
  match s.qty with
  | none => ⟨{ cleared with tradeMsg := "Invalid quantity" }, none⟩
  | some q =>
    if s.selectedTicker = "" ∨ isInteger q = false ∨ q ≤ 0 then
      ⟨{ cleared with tradeMsg := "Invalid quantity" }, none⟩
    else ⟨cleared, some ⟨type, s.selectedTicker, q⟩⟩

/-! ## Invariant of the trending loop -/

/-- The state of the loop after the instruments `done`, when none of them made
the percent change infinite: `bestPct` is a finite `m`; while `best` is `null`,
`m = 0` and no qualifying instrument of `done` has a positive percent change;
once `best` is `t`, `t` is a qualifying instrument of `done` with computed
percent change `m > 0`, every qualifying instrument before that occurrence of `t` is
strictly below `m` and every one after it is at most `m`. -/
def TrendInv (history : HistoryMap) (done : List String)
    (acc : Option String × JsNum) : Prop :=
  ∃ m : ℚ, acc.2 = JsNum.fin m ∧
    match acc.1 with
    | none => m = 0 ∧ ∀ u ∈ done, ∀ v, doublePercent history u = some v → v ≤ 0
    | some t => ∃ l1 l2, done = l1 ++ t :: l2 ∧ doublePercent history t = some m ∧ 0 < m ∧
        (∀ u ∈ l1, ∀ v, doublePercent history u = some v → v < m) ∧
        (∀ u ∈ l2, ∀ v, doublePercent history u = some v → v ≤ m)

/-! ## Authoritative part of a view -/

/-- The properties of a holding that only a snapshot supplies: ticker, quantity
and average cost. -/
def Holding.basis (h : Holding) : String × ℚ × ℚ := (h.ticker, h.qty, h.avg_cost)

/-- Two views with the same cash, realized value and holdings' tickers,
quantities and average costs, position by position. -/
def Portfolio.sameBasis (a b : Portfolio) : Prop :=
  a.cash = b.cash ∧ a.realized = b.realized ∧
    a.holdings.map Holding.basis = b.holdings.map Holding.basis

/-- The portfolio cell holds a view that was recomputed with the price cell's
current content from a view with the basis of `q`. -/
def LegacyState.recomputedFrom (s : LegacyState) (q : Portfolio) : Prop :=
  ∃ r : Portfolio, r.sameBasis q ∧ s.portfolio = recalcPortfolioWithPrices r s.prices

/-! ## Lemmas on the operators -/

@[simp] theorem orZero_eq (x : ℚ) : orZero x = x := by
  unfold orZero
  split_ifs with h
  · exact h.symm
  · rfl

@[simp] theorem nullish_none (d : ℚ) : nullish none d = d := rfl

@[simp] theorem nullish_some (v d : ℚ) : nullish (some v) d = v := rfl

/-- A number of hundredths is a fixed point of `round2`. -/
theorem round2_hundredths (k : ℤ) : round2 ((k : ℚ) / 100) = (k : ℚ) / 100 := by
  unfold round2
  split_ifs with h
  · have e : (k : ℚ) / 100 * 100 + 1 / 2 = (k : ℚ) + 1 / 2 := by ring
    have hf : ⌊(k : ℚ) + 1 / 2⌋ = k := by
      rw [Int.floor_eq_iff]; constructor <;> norm_num
    rw [e, hf]
  · have e : -((k : ℚ) / 100) * 100 + 1 / 2 = ((-k : ℤ) : ℚ) + 1 / 2 := by
      push_cast; ring
    have hf : ⌊((-k : ℤ) : ℚ) + 1 / 2⌋ = -k := by
      rw [Int.floor_eq_iff]; constructor <;> norm_num
    rw [e, hf]; push_cast; ring

/-- Every value of `round2` is a number of hundredths. -/
theorem round2_is_hundredths (x : ℚ) : ∃ k : ℤ, round2 x = (k : ℚ) / 100 := by
  unfold round2
  split_ifs with h
  · exact ⟨_, rfl⟩
  · exact ⟨-⌊-x * 100 + 1 / 2⌋, by push_cast; ring⟩

/-- Rounding twice is rounding once. -/
theorem round2_round2 (x : ℚ) : round2 (round2 x) = round2 x := by
  obtain ⟨k, hk⟩ := round2_is_hundredths x
  rw [hk, round2_hundredths]

/-! ## Lemmas on binary64 rounding -/

theorem roundHalfEven_of_near (y : ℚ) (m : ℤ) (h1 : (m : ℚ) - 1 / 2 < y)
    (h2 : y < (m : ℚ) + 1 / 2) : roundHalfEven y = m := by
  unfold roundHalfEven
  by_cases hm : (m : ℚ) ≤ y
  · have hf : ⌊y⌋ = m := by
      rw [Int.floor_eq_iff]
      exact ⟨hm, by linarith⟩
    rw [hf, if_pos (by linarith)]
  · have hf : ⌊y⌋ = m - 1 := by
      rw [Int.floor_eq_iff]
      push_cast
      exact ⟨by linarith, by linarith [not_le.mp hm]⟩
    rw [hf]
    push_cast
    rw [if_neg (by linarith), if_pos (by linarith)]
    ring

theorem floor_le_roundHalfEven (y : ℚ) : ⌊y⌋ ≤ roundHalfEven y := by
  unfold roundHalfEven
  split_ifs <;> omega

theorem roundHalfEven_le_floor_succ (y : ℚ) : roundHalfEven y ≤ ⌊y⌋ + 1 := by
  unfold roundHalfEven
  split_ifs <;> omega

theorem log_eq_of_bounds (x : ℚ) (k : ℤ) (hlo : (2 : ℚ) ^ k ≤ x)
    (hhi : x < (2 : ℚ) ^ (k + 1)) : Int.log 2 x = k := by
  have hx : 0 < x := lt_of_lt_of_le (by positivity) hlo
  have h1 : k ≤ Int.log 2 x := by
    rw [← Int.zpow_le_iff_le_log (by norm_num) hx]
    simpa using hlo
  have h2 : Int.log 2 x < k + 1 := by
    rw [← Int.lt_zpow_iff_log_lt (by norm_num) hx]
    simpa using hhi
  omega

theorem fl_zero : fl 0 = 0 := by simp [fl]

theorem fl_eq_pos (x : ℚ) (k m : ℤ) (hlo : (2 : ℚ) ^ k ≤ x) (hhi : x < (2 : ℚ) ^ (k + 1))
    (h1 : (m : ℚ) - 1 / 2 < x / (2 : ℚ) ^ (k - 52))
    (h2 : x / (2 : ℚ) ^ (k - 52) < (m : ℚ) + 1 / 2) :
    fl x = (m : ℚ) * (2 : ℚ) ^ (k - 52) := by
  have hx : 0 < x := lt_of_lt_of_le (by positivity) hlo
  unfold fl
  rw [if_neg hx.ne', abs_of_pos hx, log_eq_of_bounds x k hlo hhi,
    roundHalfEven_of_near _ m h1 h2]

theorem fl_eq_neg (x : ℚ) (k m : ℤ) (hlo : (2 : ℚ) ^ k ≤ -x) (hhi : -x < (2 : ℚ) ^ (k + 1))
    (h1 : (m : ℚ) - 1 / 2 < x / (2 : ℚ) ^ (k - 52))
    (h2 : x / (2 : ℚ) ^ (k - 52) < (m : ℚ) + 1 / 2) :
    fl x = (m : ℚ) * (2 : ℚ) ^ (k - 52) := by
  have hx : x < 0 := by
    have : 0 < -x := lt_of_lt_of_le (by positivity) hlo
    linarith
  unfold fl
  rw [if_neg hx.ne, abs_of_neg hx, log_eq_of_bounds (-x) k hlo hhi,
    roundHalfEven_of_near _ m h1 h2]

/-- A number `m * 2 ^ e` with a 53-bit significand is a double. -/
theorem fl_of_scaled (m e : ℤ) (h1 : 2 ^ 52 ≤ |m|) (h2 : |m| < 2 ^ 53) :
    fl ((m : ℚ) * (2 : ℚ) ^ e) = (m : ℚ) * (2 : ℚ) ^ e := by
  have hp : (0 : ℚ) < (2 : ℚ) ^ e := by positivity
  have hq1 : ((2 : ℚ) ^ (52 : ℕ)) ≤ |(m : ℚ)| := by
    have : ((2 ^ 52 : ℤ) : ℚ) ≤ ((|m| : ℤ) : ℚ) := by exact_mod_cast h1
    simpa using this
  have hq2 : |(m : ℚ)| < ((2 : ℚ) ^ (53 : ℕ)) := by
    have : ((|m| : ℤ) : ℚ) < ((2 ^ 53 : ℤ) : ℚ) := by exact_mod_cast h2
    simpa using this
  have he : (52 + e) - 52 = e := by ring
  have hdiv : (m : ℚ) * (2 : ℚ) ^ e / (2 : ℚ) ^ e = m := by field_simp
  have e1 : (2 : ℚ) ^ (52 + e) = (2 : ℚ) ^ (52 : ℕ) * (2 : ℚ) ^ e := by
    rw [zpow_add₀ (by norm_num)]; norm_cast
  have e2 : (2 : ℚ) ^ (52 + e + 1) = (2 : ℚ) ^ (53 : ℕ) * (2 : ℚ) ^ e := by
    rw [show 52 + e + 1 = 53 + e by ring, zpow_add₀ (by norm_num)]; norm_cast
  rcases le_or_lt 0 m with hm | hm
  · have hmq : (0 : ℚ) ≤ m := by exact_mod_cast hm
    rw [abs_of_nonneg hmq] at hq1 hq2
    have := fl_eq_pos ((m : ℚ) * (2 : ℚ) ^ e) (52 + e) m
      (by rw [e1]; exact mul_le_mul_of_nonneg_right hq1 hp.le)
      (by rw [e2]; exact mul_lt_mul_of_pos_right hq2 hp)
      (by rw [he, hdiv]; linarith) (by rw [he, hdiv]; linarith)
    rw [this, he]
  · have hmq : (m : ℚ) < 0 := by exact_mod_cast hm
    rw [abs_of_neg hmq] at hq1 hq2
    have := fl_eq_neg ((m : ℚ) * (2 : ℚ) ^ e) (52 + e) m
      (by rw [e1, ← neg_mul]; exact mul_le_mul_of_nonneg_right hq1 hp.le)
      (by rw [e2, ← neg_mul]; exact mul_lt_mul_of_pos_right hq2 hp)
      (by rw [he, hdiv]; linarith) (by rw [he, hdiv]; linarith)
    rw [this, he]

/-- Every integer below `2 ^ 53` in magnitude is a double. -/
theorem fl_intCast (n : ℤ) (h : |n| < 2 ^ 53) : fl (n : ℚ) = n := by
  by_cases h0 : n = 0
  · subst h0; simp [fl]
  · have hpos : 0 < n.natAbs := Int.natAbs_pos.mpr h0
    have hlt : n.natAbs < 2 ^ 53 := by
      have : (n.natAbs : ℤ) < 2 ^ 53 := by rw [Int.natCast_natAbs]; exact h
      exact_mod_cast this
    have hL1 : 2 ^ Nat.log 2 n.natAbs ≤ n.natAbs := Nat.pow_log_le_self 2 hpos.ne'
    have hL2 : n.natAbs < 2 ^ (Nat.log 2 n.natAbs + 1) :=
      Nat.lt_pow_succ_log_self (by norm_num) _
    have hL : Nat.log 2 n.natAbs < 53 :=
      (Nat.pow_lt_pow_iff_right (by norm_num : 1 < 2)).mp (lt_of_le_of_lt hL1 hlt)
    generalize Nat.log 2 n.natAbs = L at hL1 hL2 hL
    have key := fl_of_scaled (n * 2 ^ (52 - L)) ((L : ℤ) - 52) ?_ ?_
    · have hx : ((n * 2 ^ (52 - L) : ℤ) : ℚ) * (2 : ℚ) ^ ((L : ℤ) - 52) = n := by
        push_cast
        rw [mul_assoc]
        have : (2 : ℚ) ^ (52 - L) * (2 : ℚ) ^ ((L : ℤ) - 52) = 1 := by
          rw [← zpow_natCast, ← zpow_add₀ (by norm_num)]
          have : ((52 - L : ℕ) : ℤ) + ((L : ℤ) - 52) = 0 := by omega
          rw [this, zpow_zero]
        rw [this, mul_one]
      rw [hx] at key
      exact key
    · rw [abs_mul, abs_of_pos (by positivity : (0 : ℤ) < 2 ^ (52 - L))]
      have h1 : ((2 : ℤ) ^ L) ≤ |n| := by
        rw [← Int.natCast_natAbs]; exact_mod_cast hL1
      calc (2 : ℤ) ^ 52 = 2 ^ L * 2 ^ (52 - L) := by
            rw [← pow_add]; congr 1; omega
        _ ≤ |n| * 2 ^ (52 - L) := by
            exact mul_le_mul_of_nonneg_right h1 (by positivity)
    · rw [abs_mul, abs_of_pos (by positivity : (0 : ℤ) < 2 ^ (52 - L))]
      have h1 : |n| < ((2 : ℤ) ^ (L + 1)) := by
        rw [← Int.natCast_natAbs]; exact_mod_cast hL2
      calc |n| * 2 ^ (52 - L) < 2 ^ (L + 1) * 2 ^ (52 - L) := by
            exact mul_lt_mul_of_pos_right h1 (by positivity)
        _ = (2 : ℤ) ^ 53 := by
            rw [← pow_add]; congr 1; omega

theorem fl_pos (x : ℚ) (hx : 0 < x) : 0 < fl x := by
  unfold fl
  rw [if_neg hx.ne', abs_of_pos hx]
  have hp : (0 : ℚ) < (2 : ℚ) ^ (Int.log 2 x - 52) := by positivity
  have hlog : (2 : ℚ) ^ Int.log 2 x ≤ x := by
    simpa using Int.zpow_log_le_self (b := 2) (by norm_num) hx
  have hy : ((2 ^ 52 : ℤ) : ℚ) ≤ x / (2 : ℚ) ^ (Int.log 2 x - 52) := by
    rw [le_div_iff₀ hp]
    have : ((2 ^ 52 : ℤ) : ℚ) * (2 : ℚ) ^ (Int.log 2 x - 52) = (2 : ℚ) ^ Int.log 2 x := by
      have e : (2 : ℚ) ^ Int.log 2 x = (2 : ℚ) ^ (52 : ℤ) * (2 : ℚ) ^ (Int.log 2 x - 52) := by
        rw [← zpow_add₀ (by norm_num)]; congr 1; ring
      have e52 : (2 : ℚ) ^ (52 : ℤ) = 4503599627370496 := by norm_num
      push_cast
      rw [e, e52]
    rw [this]; exact hlog
  have hfl : (2 ^ 52 : ℤ) ≤ ⌊x / (2 : ℚ) ^ (Int.log 2 x - 52)⌋ := Int.le_floor.mpr hy
  have hr := floor_le_roundHalfEven (x / (2 : ℚ) ^ (Int.log 2 x - 52))
  have : (0 : ℚ) < (roundHalfEven (x / (2 : ℚ) ^ (Int.log 2 x - 52)) : ℚ) := by
    have : (0 : ℤ) < roundHalfEven (x / (2 : ℚ) ^ (Int.log 2 x - 52)) := by
      have : (0 : ℤ) < 2 ^ 52 := by norm_num
      omega
    exact_mod_cast this
  positivity

theorem fl_neg (x : ℚ) (hx : x < 0) : fl x < 0 := by
  unfold fl
  rw [if_neg hx.ne, abs_of_neg hx]
  have hnx : 0 < -x := by linarith
  have hp : (0 : ℚ) < (2 : ℚ) ^ (Int.log 2 (-x) - 52) := by positivity
  have hlog : (2 : ℚ) ^ Int.log 2 (-x) ≤ -x := by
    simpa using Int.zpow_log_le_self (b := 2) (by norm_num) hnx
  have hy : x / (2 : ℚ) ^ (Int.log 2 (-x) - 52) ≤ ((-(2 ^ 52) : ℤ) : ℚ) := by
    rw [div_le_iff₀ hp]
    have : ((-(2 ^ 52) : ℤ) : ℚ) * (2 : ℚ) ^ (Int.log 2 (-x) - 52)
        = -(2 : ℚ) ^ Int.log 2 (-x) := by
      have e : (2 : ℚ) ^ Int.log 2 (-x)
          = (2 : ℚ) ^ (52 : ℤ) * (2 : ℚ) ^ (Int.log 2 (-x) - 52) := by
        rw [← zpow_add₀ (by norm_num)]; congr 1; ring
      have e52 : (2 : ℚ) ^ (52 : ℤ) = 4503599627370496 := by norm_num
      push_cast
      rw [e, e52]
      norm_num
    rw [this]; linarith
  have hfl : ⌊x / (2 : ℚ) ^ (Int.log 2 (-x) - 52)⌋ ≤ -(2 ^ 52) := by
    have h1 := Int.floor_le (x / (2 : ℚ) ^ (Int.log 2 (-x) - 52))
    have : ((⌊x / (2 : ℚ) ^ (Int.log 2 (-x) - 52)⌋ : ℤ) : ℚ) ≤ ((-(2 ^ 52) : ℤ) : ℚ) :=
      le_trans h1 hy
    exact_mod_cast this
  have hr := roundHalfEven_le_floor_succ (x / (2 : ℚ) ^ (Int.log 2 (-x) - 52))
  have : (roundHalfEven (x / (2 : ℚ) ^ (Int.log 2 (-x) - 52)) : ℚ) < 0 := by
    have : roundHalfEven (x / (2 : ℚ) ^ (Int.log 2 (-x) - 52)) < (0 : ℤ) := by
      have : (0 : ℤ) < 2 ^ 52 := by norm_num
      omega
    exact_mod_cast this
  exact mul_neg_of_neg_of_pos this hp

theorem fl_pos_iff (x : ℚ) : 0 < fl x ↔ 0 < x := by
  constructor
  · intro h
    by_contra hx
    rcases lt_or_eq_of_le (not_lt.mp hx) with hx | hx
    · linarith [fl_neg x hx]
    · rw [hx, fl_zero] at h; exact lt_irrefl _ h
  · exact fl_pos x

theorem fl_neg_iff (x : ℚ) : fl x < 0 ↔ x < 0 := by
  constructor
  · intro h
    by_contra hx
    rcases lt_or_eq_of_le (not_lt.mp hx) with hx | hx
    · linarith [fl_pos x hx]
    · rw [← hx, fl_zero] at h; exact lt_irrefl _ h
  · exact fl_neg x

theorem fl_eq_zero_iff (x : ℚ) : fl x = 0 ↔ x = 0 := by
  constructor
  · intro h
    by_contra hx
    rcases lt_or_gt_of_ne hx with hx | hx
    · have := fl_neg x hx; rw [h] at this; exact lt_irrefl _ this
    · have := fl_pos x hx; rw [h] at this; exact lt_irrefl _ this
  · rintro rfl; exact fl_zero

theorem fl_of_int (q : ℚ) (n : ℤ) (hq : q = n) (h : |n| < 2 ^ 53) : fl q = q := by
  subst hq
  exact fl_intCast n h

theorem round2_of_int (q : ℚ) (n : ℤ) (hq : q = n) : round2 q = q := by
  have h := round2_hundredths (100 * n)
  have e : ((100 * n : ℤ) : ℚ) / 100 = q := by
    rw [hq]; push_cast; ring
  rwa [e] at h

theorem plusToFixed2_of_int (q : ℚ) (n : ℤ) (hq : q = n) (h : |n| < 2 ^ 53) :
    plusToFixed2 q = q := by
  unfold plusToFixed2
  rw [round2_of_int q n hq, fl_of_int q n hq h]

/-- Every value of `+(x.toFixed(2))` is the binary64 number of a number of
hundredths. -/
theorem plusToFixed2_is_hundredths (x : ℚ) : ∃ k : ℤ, plusToFixed2 x = fl ((k : ℚ) / 100) := by
  obtain ⟨k, hk⟩ := round2_is_hundredths x
  exact ⟨k, by rw [plusToFixed2, hk]⟩

/-- The sum computed by `reduce` adds the `unrealized` fields from the left,
rounding after each addition. -/
theorem foldl_addUnrealized (hs : List Holding) (s : ℚ) :
    hs.foldl addUnrealized s = (hs.map Holding.unrealized).foldl fadd s := by
  induction hs generalizing s with
  | nil => rfl
  | cons h t ih => simp [List.foldl_cons, ih, addUnrealized]

theorem recalc_holdings (p : Portfolio) (P : PriceMap) :
    (recalcPortfolioWithPrices p P).holdings = p.holdings.map (recalcHolding P) := rfl

/-- The model follows the rounding of the code: at price `50` and the average
cost that `33.335` denotes as a binary64 number, one share has the unrealized
value that `16.66` denotes, whereas the exact difference `50 - 33.335` rounds
to `16.67`. -/
theorem recalcHolding_binary64_example :
    (recalcHolding [("GOOG", 50)] ⟨"GOOG", 1, fl (33335 / 1000), 0, 0⟩).unrealized
      = fl (1666 / 100) ∧
    round2 ((50 - 33335 / 1000) * 1) = 1667 / 100 := by
  have h1 : fl (33335 / 1000) = 4691484174324859 / 140737488355328 := by
    rw [fl_eq_pos (33335 / 1000) 5 4691484174324859 (by norm_num) (by norm_num)
      (by norm_num) (by norm_num)]
    norm_num
  have h2 : fl (4690780486883082 / 281474976710656)
      = 4690780486883082 / 281474976710656 := by
    have := fl_of_scaled 4690780486883082 (-48) (by norm_num) (by norm_num)
    norm_num at this ⊢
    exact this
  have h3 : round2 (4690780486883082 / 281474976710656) = 1666 / 100 := by
    unfold round2
    rw [if_pos (by norm_num)]
    have hf : ⌊(4690780486883082 / 281474976710656 : ℚ) * 100 + 1 / 2⌋ = 1666 := by
      rw [Int.floor_eq_iff]; constructor <;> norm_num
    rw [hf]; norm_num
  have h4 : round2 ((50 - 33335 / 1000) * 1) = 1667 / 100 := by
    unfold round2
    rw [if_pos (by norm_num)]
    have hf : ⌊((50 - 33335 / 1000 : ℚ) * 1) * 100 + 1 / 2⌋ = 1667 := by
      rw [Int.floor_eq_iff]; constructor <;> norm_num
    rw [hf]; norm_num
  refine ⟨?_, h4⟩
  have e1 : fsub 50 (4691484174324859 / 140737488355328)
      = 4690780486883082 / 281474976710656 := by
    unfold fsub
    have : (50 : ℚ) - 4691484174324859 / 140737488355328
        = 4690780486883082 / 281474976710656 := by norm_num
    rw [this, h2]
  have e2 : fmul (4690780486883082 / 281474976710656) 1
      = 4690780486883082 / 281474976710656 := by
    unfold fmul
    rw [mul_one, h2]
  have hl : List.lookup "GOOG" [("GOOG", (50 : ℚ))] = some 50 := by simp [List.lookup]
  simp only [recalcHolding, hl, nullish_some, orZero_eq, h1, e1, e2, plusToFixed2, h3]

/-! ## Claims on `recalcPortfolioWithPrices` -/

/-- C1: for every portfolio view `p` and price map `P`, a holding `H` at
position `i` of `p` whose ticker has the price `price` in `P` is returned at
position `i` with `current_price = price` and `unrealized` the value of
`+(((price - H.avg_cost) * H.qty).toFixed(2))`, the difference and the product
being computed in binary64 arithmetic. -/
theorem recalc_priced_holding (p : Portfolio) (P : PriceMap) (i : ℕ) (H : Holding)
    (price : ℚ) (hH : p.holdings[i]? = some H) (hP : P.lookup H.ticker = some price) :
    ∃ H', (recalcPortfolioWithPrices p P).holdings[i]? = some H' ∧
      H'.ticker = H.ticker ∧ H'.current_price = price ∧
      H'.unrealized = plusToFixed2 (fmul (fsub price H.avg_cost) H.qty) := by
  refine ⟨recalcHolding P H, ?_, rfl, ?_, ?_⟩
  · simp [recalc_holdings, List.getElem?_map, hH]
  · simp [recalcHolding, hP]
  · simp [recalcHolding, hP]

theorem recalc_value_150 : plusToFixed2 (fmul (fsub 115 100) 10) = 150 := by
  have a : fsub 115 100 = 15 := by
    unfold fsub
    rw [fl_of_int _ 15 (by norm_num) (by norm_num)]; norm_num
  have b : fmul 15 10 = 150 := by
    unfold fmul
    rw [fl_of_int _ 150 (by norm_num) (by norm_num)]; norm_num
  rw [a, b, plusToFixed2_of_int 150 150 (by norm_num) (by norm_num)]

theorem recalc_value_100 : plusToFixed2 (fmul (fsub 250 200) 2) = 100 := by
  have a : fsub 250 200 = 50 := by
    unfold fsub
    rw [fl_of_int _ 50 (by norm_num) (by norm_num)]; norm_num
  have b : fmul 50 2 = 100 := by
    unfold fmul
    rw [fl_of_int _ 100 (by norm_num) (by norm_num)]; norm_num
  rw [a, b, plusToFixed2_of_int 100 100 (by norm_num) (by norm_num)]

theorem recalc_value_neg_1000 : plusToFixed2 (fmul (fsub 0 100) 10) = -1000 := by
  have a : fsub 0 100 = -100 := by
    unfold fsub
    rw [fl_of_int _ (-100) (by norm_num) (by norm_num)]; norm_num
  have b : fmul (-100) 10 = -1000 := by
    unfold fmul
    rw [fl_of_int _ (-1000) (by norm_num) (by norm_num)]; norm_num
  rw [a, b, plusToFixed2_of_int (-1000) (-1000) (by norm_num) (by norm_num)]

theorem recalc_value_neg_400 : plusToFixed2 (fmul (fsub 0 200) 2) = -400 := by
  have a : fsub 0 200 = -200 := by
    unfold fsub
    rw [fl_of_int _ (-200) (by norm_num) (by norm_num)]; norm_num
  have b : fmul (-200) 2 = -400 := by
    unfold fmul
    rw [fl_of_int _ (-400) (by norm_num) (by norm_num)]; norm_num
  rw [a, b, plusToFixed2_of_int (-400) (-400) (by norm_num) (by norm_num)]

/-- C1, the two scenarios of the specification: `avg_cost = 100`, `qty = 10` at
price `115` gives `150`, and `avg_cost = 200`, `qty = 2` at the price of the
delta `{TSLA: 250}` gives `100`. -/
theorem recalc_priced_holding_witness :
    (∃ H', (recalcPortfolioWithPrices
        ⟨0, 0, [⟨"GOOG", 10, 100, 0, 0⟩], 0⟩ [("GOOG", 115)]).holdings[0]? = some H' ∧
      H'.current_price = 115 ∧ H'.unrealized = 150) ∧
    (∃ H', (recalcPortfolioWithPrices
        ⟨0, 0, [⟨"TSLA", 2, 200, 0, 0⟩], 0⟩ [("TSLA", 250)]).holdings[0]? = some H' ∧
      H'.current_price = 250 ∧ H'.unrealized = 100) := by
  constructor
  · obtain ⟨H', h1, _, h2, h3⟩ := recalc_priced_holding
      ⟨0, 0, [⟨"GOOG", 10, 100, 0, 0⟩], 0⟩ [("GOOG", 115)] 0 ⟨"GOOG", 10, 100, 0, 0⟩ 115
      rfl (by simp [List.lookup])
    exact ⟨H', h1, h2, by rw [h3]; exact recalc_value_150⟩
  · obtain ⟨H', h1, _, h2, h3⟩ := recalc_priced_holding
      ⟨0, 0, [⟨"TSLA", 2, 200, 0, 0⟩], 0⟩ [("TSLA", 250)] 0 ⟨"TSLA", 2, 200, 0, 0⟩ 250
      rfl (by simp [List.lookup])
    exact ⟨H', h1, h2, by rw [h3]; exact recalc_value_100⟩

/-- C2 as stated fails: the holding `TSLA` with `qty = 10`, `avg_cost = 100`,
`current_price = 0` and `unrealized = 50` has no price in `{GOOG: 100}`, and its
`unrealized` after the recalculation is `-1000`, not `50`. -/
theorem recalc_unpriced_unrealized_changes :
    ∃ H', (recalcPortfolioWithPrices
        ⟨0, 0, [⟨"TSLA", 10, 100, 0, 50⟩], 50⟩ [("GOOG", 100)]).holdings[0]? = some H' ∧
      List.lookup "TSLA" [("GOOG", (100 : ℚ))] = none ∧
      H'.unrealized = (-1000 : ℚ) ∧ H'.unrealized ≠ (50 : ℚ) := by
  have hu : (recalcHolding [("GOOG", 100)] ⟨"TSLA", 10, 100, 0, 50⟩).unrealized
      = (-1000 : ℚ) := by
    have hl : List.lookup "TSLA" [("GOOG", (100 : ℚ))] = none := by decide
    simp only [recalcHolding, hl, nullish_none, orZero_eq]
    exact recalc_value_neg_1000
  exact ⟨recalcHolding [("GOOG", 100)] ⟨"TSLA", 10, 100, 0, 50⟩, rfl, by decide, hu,
    by rw [hu]; norm_num⟩

/-- C2, amended: for every portfolio view and price map, a holding `H` whose
ticker has no price in the map is returned with `unrealized` recomputed as
`+(((H.current_price - H.avg_cost) * H.qty).toFixed(2))` from its retained
`current_price`, in binary64 arithmetic; this is `H`'s prior `unrealized`
whenever the prior value already was that value. -/
theorem recalc_unpriced_unrealized (p : Portfolio) (P : PriceMap) (i : ℕ) (H : Holding)
    (hH : p.holdings[i]? = some H) (hP : P.lookup H.ticker = none) :
    ∃ H', (recalcPortfolioWithPrices p P).holdings[i]? = some H' ∧
      H'.unrealized = plusToFixed2 (fmul (fsub H.current_price H.avg_cost) H.qty) ∧
      (H.unrealized = plusToFixed2 (fmul (fsub H.current_price H.avg_cost) H.qty) →
        H'.unrealized = H.unrealized) := by
  refine ⟨recalcHolding P H, ?_, ?_, ?_⟩
  · simp [recalc_holdings, List.getElem?_map, hH]
  · simp [recalcHolding, hP]
  · intro h
    simp [recalcHolding, hP, h]

/-- C2, amended, on the holding `TSLA` with `qty = 2`, `avg_cost = 200`,
`current_price = 250`, `unrealized = 100` and the price map `{GOOG: 100}`. -/
theorem recalc_unpriced_unrealized_witness :
    ∃ H', (recalcPortfolioWithPrices
        ⟨0, 0, [⟨"TSLA", 2, 200, 250, 100⟩], 100⟩ [("GOOG", 100)]).holdings[0]? = some H' ∧
      H'.unrealized = 100 := by
  obtain ⟨H', h1, _, h3⟩ := recalc_unpriced_unrealized
    ⟨0, 0, [⟨"TSLA", 2, 200, 250, 100⟩], 100⟩ [("GOOG", 100)] 0 ⟨"TSLA", 2, 200, 250, 100⟩
    rfl (by decide)
  exact ⟨H', h1, h3 recalc_value_100.symm⟩

/-- C3: for every portfolio view and price map, the `unrealized` total of the
returned view is `+(total.toFixed(2))` of the sum, added from the left in
binary64 arithmetic, of the returned holdings' `unrealized` values; each of
these is itself the value of `+(x.toFixed(2))` for the product `x` of its
holding, hence the binary64 number of a number of hundredths; and the total is
not always the rounding of the unrounded sum: two holdings with the product
`1/256` give `0`, where the unrounded sum `1/128` would give `0.01`. -/
theorem recalc_total_round_sum_round :
    (∀ (p : Portfolio) (P : PriceMap),
      (recalcPortfolioWithPrices p P).unrealized =
          plusToFixed2
            (((recalcPortfolioWithPrices p P).holdings.map Holding.unrealized).foldl fadd 0) ∧
      (recalcPortfolioWithPrices p P).holdings.map Holding.unrealized =
          p.holdings.map (fun h => plusToFixed2
            (fmul (fsub (nullish (P.lookup h.ticker) h.current_price) h.avg_cost) h.qty)) ∧
      ∀ h ∈ (recalcPortfolioWithPrices p P).holdings,
        ∃ k : ℤ, h.unrealized = fl ((k : ℚ) / 100)) ∧
    (∃ (p : Portfolio) (P : PriceMap),
      (recalcPortfolioWithPrices p P).unrealized ≠
        plusToFixed2 ((p.holdings.map (fun h =>
          fmul (fsub (nullish (P.lookup h.ticker) h.current_price) h.avg_cost)
            h.qty)).foldl fadd 0)) := by
  constructor
  · intro p P
    refine ⟨?_, ?_, ?_⟩
    · simp [recalcPortfolioWithPrices, foldl_addUnrealized]
    · simp [recalcPortfolioWithPrices, recalcHolding, Function.comp_def]
    · intro h hh
      rw [recalc_holdings, List.mem_map] at hh
      obtain ⟨g, _, rfl⟩ := hh
      exact plusToFixed2_is_hundredths _
  · refine ⟨⟨0, 0, [⟨"GOOG", 1, 0, 1 / 256, 0⟩, ⟨"TSLA", 1, 0, 1 / 256, 0⟩], 0⟩, [], ?_⟩
    have f256 : fl (1 / 256) = 1 / 256 := by
      have := fl_of_scaled (2 ^ 52) (-60) (by norm_num) (by norm_num)
      norm_num at this ⊢
      exact this
    have f128 : fl (1 / 128) = 1 / 128 := by
      have := fl_of_scaled (2 ^ 52) (-59) (by norm_num) (by norm_num)
      norm_num at this ⊢
      exact this
    have r256 : round2 (1 / 256) = 0 := by
      unfold round2
      rw [if_pos (by norm_num)]
      have hf : ⌊(1 / 256 : ℚ) * 100 + 1 / 2⌋ = 0 := by
        rw [Int.floor_eq_iff]; constructor <;> norm_num
      rw [hf]; norm_num
    have r128 : round2 (1 / 128) = 1 / 100 := by
      unfold round2
      rw [if_pos (by norm_num)]
      have hf : ⌊(1 / 128 : ℚ) * 100 + 1 / 2⌋ = 1 := by
        rw [Int.floor_eq_iff]; constructor <;> norm_num
      rw [hf]; norm_num
    have r0 : round2 0 = 0 := round2_of_int 0 0 (by norm_num)
    have e1 : fsub (1 / 256) 0 = 1 / 256 := by
      unfold fsub; rw [sub_zero, f256]
    have e2 : fmul (1 / 256) 1 = 1 / 256 := by
      unfold fmul; rw [mul_one, f256]
    have e3 : plusToFixed2 (1 / 256) = 0 := by
      unfold plusToFixed2; rw [r256, fl_zero]
    have e4 : fadd 0 0 = 0 := by
      unfold fadd; rw [add_zero, fl_zero]
    have e5 : plusToFixed2 0 = 0 := by
      unfold plusToFixed2; rw [r0, fl_zero]
    have e6 : fadd 0 (1 / 256) = 1 / 256 := by
      unfold fadd; rw [zero_add, f256]
    have e7 : fadd (1 / 256) (1 / 256) = 1 / 128 := by
      unfold fadd
      have : (1 / 256 : ℚ) + 1 / 256 = 1 / 128 := by norm_num
      rw [this, f128]
    have e8 : plusToFixed2 (1 / 128) ≠ 0 := by
      unfold plusToFixed2
      rw [r128, Ne, fl_eq_zero_iff]
      norm_num
    have hl : ∀ t : String, List.lookup t ([] : PriceMap) = none := fun _ => rfl
    simp only [recalcPortfolioWithPrices, recalcHolding, addUnrealized, List.map_cons,
      List.map_nil, List.foldl_cons, List.foldl_nil, hl, nullish_none, orZero_eq, e1, e2, e3,
      e4, e5, e6, e7]
    exact fun h => e8 h.symm

/-- C9: for every portfolio view and price map, a holding whose ticker has no
price in the map is returned with its `current_price` unchanged. -/
theorem recalc_unpriced_current_price (p : Portfolio) (P : PriceMap) (i : ℕ)
    (H : Holding) (hH : p.holdings[i]? = some H) (hP : P.lookup H.ticker = none) :
    ∃ H', (recalcPortfolioWithPrices p P).holdings[i]? = some H' ∧
      H'.ticker = H.ticker ∧ H'.current_price = H.current_price := by
  refine ⟨recalcHolding P H, ?_, rfl, ?_⟩
  · simp [recalc_holdings, List.getElem?_map, hH]
  · simp [recalcHolding, hP]

/-- C9 on a price map that only contains another instrument: the holding
`TSLA` with `current_price = 250` keeps `250` under `{GOOG: 100}`. -/
theorem recalc_unpriced_current_price_witness :
    ∃ H', (recalcPortfolioWithPrices
        ⟨0, 0, [⟨"TSLA", 2, 200, 250, 100⟩], 100⟩ [("GOOG", 100)]).holdings[0]? = some H' ∧
      H'.current_price = 250 ∧ H'.current_price ≠ 0 := by
  obtain ⟨H', h1, _, h3⟩ := recalc_unpriced_current_price
    ⟨0, 0, [⟨"TSLA", 2, 200, 250, 100⟩], 100⟩ [("GOOG", 100)] 0 ⟨"TSLA", 2, 200, 250, 100⟩
    rfl (by decide)
  exact ⟨H', h1, h3, by rw [h3]; norm_num⟩

/-! ## Claims on `normalizePortfolio` -/

@[simp] theorem optOrZero_some (x : ℚ) : optOrZero (some x) = x := by
  simp [optOrZero]

@[simp] theorem optOrZero_none : optOrZero none = 0 := rfl

theorem normalizeHolding_toRaw (h : Holding) : normalizeHolding h.toRaw = h := by
  cases h
  simp [normalizeHolding, Holding.toRaw]

theorem normalizeHoldings_toRaw (hs : List Holding) :
    (hs.map Holding.toRaw).map normalizeHolding = hs := by
  induction hs with
  | nil => rfl
  | cons h t ih => simp [normalizeHolding_toRaw, ih]

/-- C6: `normalizePortfolio` is idempotent: for every snapshot `s` (holdings as
an array, as a map or missing, and the falsy snapshot `none`), normalizing the
result of `normalizePortfolio s` returns that result again. -/
theorem normalizePortfolio_idempotent (s : Option RawSnapshot) :
    normalizePortfolio (some (normalizePortfolio s).toRaw) = normalizePortfolio s := by
  cases s with
  | none => rfl
  | some r =>
    simp only [normalizePortfolio, Portfolio.toRaw, normalizeHoldings,
      normalizeHoldings_toRaw, nullish_some]

/-- C7: for every snapshot whose `holdings` is a map `{ ticker: qty }`,
`normalizePortfolio` returns as many holdings as the map has entries, and the
entry `(t, q)` at position `i` yields at position `i` the holding with ticker
`t`, `qty = q`, `avg_cost = 0`, `current_price = 0` and `unrealized = 0`. -/
theorem normalizePortfolio_map (cash realized unrealized : Option ℚ)
    (entries : List (String × Option ℚ)) :
    (normalizePortfolio
        (some ⟨cash, realized, RawHoldings.map entries, unrealized⟩)).holdings.length
      = entries.length ∧
    ∀ (i : ℕ) (t : String) (q : ℚ), entries[i]? = some (t, some q) →
      (normalizePortfolio
        (some ⟨cash, realized, RawHoldings.map entries, unrealized⟩)).holdings[i]?
      = some ⟨t, q, 0, 0, 0⟩ := by
  constructor
  · simp [normalizePortfolio, normalizeHoldings]
  · intro i t q h
    simp [normalizePortfolio, normalizeHoldings, List.getElem?_map, h, normalizeEntry]

/-- C7 on the snapshot whose holdings are `{ "GOOG": 5 }`: the normalized view
has the single holding `GOOG` with `qty = 5` and zero `avg_cost`,
`current_price` and `unrealized`. -/
theorem normalizePortfolio_map_witness :
    (normalizePortfolio
      (some ⟨none, none, RawHoldings.map [("GOOG", some 5)], none⟩)).holdings
      = [⟨"GOOG", 5, 0, 0, 0⟩] := by
  have h := normalizePortfolio_map none none none [("GOOG", some 5)]
  have h0 := h.2 0 "GOOG" 5 rfl
  have hl := h.1
  generalize (normalizePortfolio
    (some ⟨none, none, RawHoldings.map [("GOOG", some 5)], none⟩)).holdings = l at h0 hl
  match l, hl, h0 with
  | [x], _, h0 => simpa using h0

/-- C8: for every snapshot whose `holdings` is an array, `normalizePortfolio`
returns an array of the same length, and the entry at position `i` yields at
position `i` the holding with the entry's ticker in which each of `qty`,
`avg_cost`, `current_price` and `unrealized` is the entry's value when present
and `0` when missing. -/
theorem normalizePortfolio_seq (cash realized unrealized : Option ℚ)
    (entries : List RawHolding) :
    (normalizePortfolio
        (some ⟨cash, realized, RawHoldings.seq entries, unrealized⟩)).holdings.length
      = entries.length ∧
    ∀ (i : ℕ) (e : RawHolding), entries[i]? = some e →
      (normalizePortfolio
        (some ⟨cash, realized, RawHoldings.seq entries, unrealized⟩)).holdings[i]?
      = some ⟨e.ticker, e.qty.getD 0, e.avg_cost.getD 0, e.current_price.getD 0,
          e.unrealized.getD 0⟩ := by
  constructor
  · simp [normalizePortfolio, normalizeHoldings]
  · intro i e h
    have g : ∀ x : Option ℚ, optOrZero x = x.getD 0 := by
      intro x; cases x <;> simp
    simp [normalizePortfolio, normalizeHoldings, List.getElem?_map, h, normalizeHolding, g]

/-- C8 on an array of two entries, the second with only its ticker and `qty`:
both holdings are returned in order and the missing fields are `0`. -/
theorem normalizePortfolio_seq_witness :
    (normalizePortfolio (some ⟨some 10, none, RawHoldings.seq
        [⟨"TSLA", some 2, some 200, some 250, some 100⟩,
         ⟨"GOOG", some 5, none, none, none⟩], none⟩)).holdings[1]?
      = some ⟨"GOOG", 5, 0, 0, 0⟩ :=
  (normalizePortfolio_seq (some 10) none none
    [⟨"TSLA", some 2, some 200, some 250, some 100⟩,
     ⟨"GOOG", some 5, none, none, none⟩]).2 1 ⟨"GOOG", some 5, none, none, none⟩ rfl

/-! ## Claims on the price store -/

theorem lookup_cons_ite (k : String) (v : ℚ) (rest : PriceMap) (t : String) :
    List.lookup t ((k, v) :: rest) = if t = k then some v else List.lookup t rest := by
  rw [List.lookup_cons]
  by_cases h : t = k
  · subst h; simp
  · have hb : (t == k) = false := by simpa using h
    simp [hb, h]

theorem lookup_setPrice (m : PriceMap) (k : String) (v : ℚ) (t : String) :
    (setPrice m k v).lookup t = if t = k then some v else m.lookup t := by
  induction m with
  | nil => simp [setPrice, lookup_cons_ite]
  | cons e rest ih =>
    obtain ⟨k', v'⟩ := e
    by_cases hk : k' = k
    · subst hk
      by_cases h : t = k' <;> simp [setPrice, lookup_cons_ite, h]
    · by_cases h : t = k
      · subst h
        have hk' : ¬ t = k' := fun e => hk e.symm
        simp [setPrice, lookup_cons_ite, hk, hk', ih]
      · by_cases h' : t = k' <;> simp [setPrice, lookup_cons_ite, hk, h, h', ih]

/-- A key absent from the payload keeps its value through the spread. -/
theorem lookup_mergePrices_absent (payload prev : PriceMap) (t : String)
    (h : payload.lookup t = none) :
    (mergePrices prev payload).lookup t = prev.lookup t := by
  induction payload generalizing prev with
  | nil => rfl
  | cons e rest ih =>
    obtain ⟨k, v⟩ := e
    rw [lookup_cons_ite] at h
    have hk : ¬ t = k := by
      intro hk
      simp [hk] at h
    rw [if_neg hk] at h
    have := ih (setPrice prev k v) h
    simp only [mergePrices, List.foldl_cons] at this ⊢
    rw [this, lookup_setPrice, if_neg hk]

theorem lookup_none_of_not_mem_keys (m : PriceMap) (t : String)
    (h : t ∉ m.map Prod.fst) : m.lookup t = none := by
  induction m with
  | nil => rfl
  | cons e rest ih =>
    obtain ⟨k, v⟩ := e
    simp only [List.map_cons, List.mem_cons, not_or] at h
    rw [lookup_cons_ite, if_neg h.1]
    exact ih h.2

/-- A key of a payload with distinct keys takes the payload's value. -/
theorem lookup_mergePrices_present (payload prev : PriceMap) (t : String) (v : ℚ)
    (nd : (payload.map Prod.fst).Nodup) (h : payload.lookup t = some v) :
    (mergePrices prev payload).lookup t = some v := by
  induction payload generalizing prev with
  | nil => simp [List.lookup] at h
  | cons e rest ih =>
    obtain ⟨k, w⟩ := e
    rw [List.map_cons, List.nodup_cons] at nd
    rw [lookup_cons_ite] at h
    by_cases hk : t = k
    · subst hk
      rw [if_pos rfl] at h
      have hr : rest.lookup t = none := lookup_none_of_not_mem_keys rest t nd.1
      have := lookup_mergePrices_absent rest (setPrice prev t w) t hr
      simp only [mergePrices, List.foldl_cons] at this ⊢
      rw [this, lookup_setPrice, if_pos rfl]
      exact h
    · rw [if_neg hk] at h
      have := ih (setPrice prev k w) nd.2 h
      simpa only [mergePrices, List.foldl_cons] using this

/-- C10 as stated fails on the active handler `socket.on("stockUpdate",
setPrices)`: from the store `{GOOG: 100}` the delta `{TSLA: 250}`, which has no
entry for `GOOG`, leaves `GOOG` without a price. -/
theorem active_stockUpdate_drops_absent :
    List.lookup "GOOG" [("TSLA", (250 : ℚ))] = none ∧
    (ActiveState.mk [("GOOG", 100)] [] none).prices.lookup "GOOG" = some 100 ∧
    (activeStep (ActiveState.mk [("GOOG", 100)] [] none)
      (ActiveEvent.stockUpdate [("TSLA", 250)])).prices.lookup "GOOG" = none := by
  refine ⟨by decide, ?_, by decide⟩
  simp [List.lookup]

/-- C10, amended: the `stockUpdate` handler of the two earlier versions merges
a delta (an object, so with distinct keys) into the price store: each
instrument of the delta then has the delta's price and every other instrument
the price it had before; the `stockUpdate` handler of the active version
replaces the store by the payload: each instrument of the payload has the
payload's price and every other instrument has none. -/
theorem stockUpdate_store :
    (∀ (s : LegacyState) (delta : PriceMap), (delta.map Prod.fst).Nodup →
      (∀ t v, delta.lookup t = some v →
        (legacyStep s (LegacyEvent.stockUpdate (some delta))).prices.lookup t = some v) ∧
      (∀ t, delta.lookup t = none →
        (legacyStep s (LegacyEvent.stockUpdate (some delta))).prices.lookup t
          = s.prices.lookup t)) ∧
    (∀ (a : ActiveState) (payload : PriceMap) (t : String),
      (activeStep a (ActiveEvent.stockUpdate payload)).prices.lookup t
        = payload.lookup t) := by
  refine ⟨fun s delta nd => ⟨fun t v h => ?_, fun t h => ?_⟩, fun a payload t => rfl⟩
  · exact lookup_mergePrices_present delta s.prices t v nd h
  · exact lookup_mergePrices_absent delta s.prices t h

/-- C10, amended, on the store `{GOOG: 100, TSLA: 240}` and the delta
`{TSLA: 250}`: afterwards `TSLA` is at `250` and `GOOG` still at `100`. -/
theorem stockUpdate_store_witness :
    (legacyStep ⟨[("GOOG", 100), ("TSLA", 240)], ⟨0, 0, [], 0⟩, []⟩
      (LegacyEvent.stockUpdate (some [("TSLA", 250)]))).prices.lookup "TSLA" = some 250 ∧
    (legacyStep ⟨[("GOOG", 100), ("TSLA", 240)], ⟨0, 0, [], 0⟩, []⟩
      (LegacyEvent.stockUpdate (some [("TSLA", 250)]))).prices.lookup "GOOG" = some 100 := by
  have h := stockUpdate_store.1 ⟨[("GOOG", 100), ("TSLA", 240)], ⟨0, 0, [], 0⟩, []⟩
    [("TSLA", 250)] (by simp)
  refine ⟨h.1 "TSLA" 250 (by simp [List.lookup]), ?_⟩
  rw [h.2 "GOOG" (by decide)]
  simp [List.lookup]

/-! ## Claims on the event handlers -/

theorem sameBasis_refl (a : Portfolio) : a.sameBasis a := ⟨rfl, rfl, rfl⟩

theorem sameBasis_trans {a b c : Portfolio} (h : a.sameBasis b) (g : b.sameBasis c) :
    a.sameBasis c :=
  ⟨h.1.trans g.1, h.2.1.trans g.2.1, h.2.2.trans g.2.2⟩

theorem recalcHolding_basis (P : PriceMap) (h : Holding) :
    (recalcHolding P h).basis = h.basis := rfl

theorem recalc_sameBasis (p : Portfolio) (P : PriceMap) :
    (recalcPortfolioWithPrices p P).sameBasis p := by
  refine ⟨rfl, rfl, ?_⟩
  simp [recalc_holdings, Function.comp_def, recalcHolding_basis]

/-- Two holdings with the same basis and a priced ticker are recomputed alike. -/
theorem recalcHolding_congr (P : PriceMap) (x y : Holding) (hb : x.basis = y.basis)
    (hp : (P.lookup y.ticker).isSome) : recalcHolding P x = recalcHolding P y := by
  obtain ⟨v, hv⟩ := Option.isSome_iff_exists.mp hp
  cases x; cases y
  simp only [Holding.basis, Prod.mk.injEq] at hb
  obtain ⟨h1, h2, h3⟩ := hb
  subst h1 h2 h3
  simp only [] at hv
  simp [recalcHolding, hv]

theorem map_recalcHolding_congr (P : PriceMap) (xs ys : List Holding)
    (hb : xs.map Holding.basis = ys.map Holding.basis)
    (hp : ∀ h ∈ ys, (P.lookup h.ticker).isSome) :
    xs.map (recalcHolding P) = ys.map (recalcHolding P) := by
  induction xs generalizing ys with
  | nil =>
    cases ys with
    | nil => rfl
    | cons y ys => simp at hb
  | cons x xs ih =>
    cases ys with
    | nil => simp at hb
    | cons y ys =>
      simp only [List.map_cons, List.cons.injEq] at hb ⊢
      exact ⟨recalcHolding_congr P x y hb.1 (hp y (List.mem_cons_self _ _)),
        ih ys hb.2 (fun h hh => hp h (List.mem_cons_of_mem _ hh))⟩

/-- Views with the same basis whose holdings are all priced are recomputed
alike. -/
theorem recalc_congr (P : PriceMap) (a b : Portfolio) (hb : a.sameBasis b)
    (hp : ∀ h ∈ b.holdings, (P.lookup h.ticker).isSome) :
    recalcPortfolioWithPrices a P = recalcPortfolioWithPrices b P := by
  have hh := map_recalcHolding_congr P a.holdings b.holdings hb.2.2 hp
  cases a; cases b
  obtain ⟨h1, h2, _⟩ := hb
  simp only [] at h1 h2 hh
  simp [recalcPortfolioWithPrices, h1, h2, hh]

theorem legacyRun_cons (s : LegacyState) (e : LegacyEvent) (es : List LegacyEvent) :
    legacyRun s (e :: es) = legacyRun (legacyStep s e) es := rfl

theorem legacyRun_append (s : LegacyState) (es fs : List LegacyEvent) :
    legacyRun s (es ++ fs) = legacyRun (legacyRun s es) fs := by
  simp [legacyRun, List.foldl_append]

/-- An accepted price event leaves a view recomputed with the new store. -/
theorem legacyStep_accepted (s : LegacyState) (e : LegacyEvent) (q : Portfolio)
    (hq : s.portfolio.sameBasis q) (he : e.isAccepted = true) :
    (legacyStep s e).recomputedFrom q := by
  cases e with
  | stockUpdate payload =>
    cases payload with
    | none => simp [LegacyEvent.isAccepted] at he
    | some d => exact ⟨s.portfolio, hq, rfl⟩
  | prices all =>
    cases all with
    | none => simp [LegacyEvent.isAccepted] at he
    | some d => exact ⟨s.portfolio, hq, rfl⟩
  | portfolioUpdate p => simp [LegacyEvent.isAccepted] at he

theorem recomputedFrom_sameBasis {s : LegacyState} {q : Portfolio}
    (h : s.recomputedFrom q) : s.portfolio.sameBasis q := by
  obtain ⟨r, hr, hs⟩ := h
  rw [hs]
  exact sameBasis_trans (recalc_sameBasis r s.prices) hr

/-- A price event keeps the basis of the view. -/
theorem legacyStep_price_sameBasis (s : LegacyState) (e : LegacyEvent) (q : Portfolio)
    (hq : s.portfolio.sameBasis q) (he : e.isPrice = true) :
    (legacyStep s e).portfolio.sameBasis q := by
  cases e with
  | stockUpdate payload =>
    cases payload with
    | none => exact hq
    | some d => exact sameBasis_trans (recalc_sameBasis _ _) hq
  | prices all =>
    cases all with
    | none => exact hq
    | some d => exact sameBasis_trans (recalc_sameBasis _ _) hq
  | portfolioUpdate p => simp [LegacyEvent.isPrice] at he

/-- A price event keeps a recomputed view recomputed. -/
theorem legacyStep_price_recomputed (s : LegacyState) (e : LegacyEvent) (q : Portfolio)
    (hq : s.recomputedFrom q) (he : e.isPrice = true) :
    (legacyStep s e).recomputedFrom q := by
  by_cases ha : e.isAccepted = true
  · exact legacyStep_accepted s e q (recomputedFrom_sameBasis hq) ha
  · cases e with
    | stockUpdate payload =>
      cases payload with
      | none => exact hq
      | some d => simp [LegacyEvent.isAccepted] at ha
    | prices all =>
      cases all with
      | none => exact hq
      | some d => simp [LegacyEvent.isAccepted] at ha
    | portfolioUpdate p => simp [LegacyEvent.isPrice] at he

theorem legacyRun_price_recomputed (post : List LegacyEvent) (s : LegacyState)
    (q : Portfolio) (hq : s.recomputedFrom q) (hpost : ∀ e ∈ post, e.isPrice = true) :
    (legacyRun s post).recomputedFrom q := by
  induction post generalizing s with
  | nil => exact hq
  | cons e rest ih =>
    rw [legacyRun_cons]
    exact ih _ (legacyStep_price_recomputed s e q hq (hpost e (List.mem_cons_self _ _)))
      (fun f hf => hpost f (List.mem_cons_of_mem _ hf))

theorem legacyRun_price_accepted (post : List LegacyEvent) (s : LegacyState)
    (q : Portfolio) (hq : s.portfolio.sameBasis q)
    (hpost : ∀ e ∈ post, e.isPrice = true) (hacc : ∃ e ∈ post, e.isAccepted = true) :
    (legacyRun s post).recomputedFrom q := by
  induction post generalizing s with
  | nil => simp at hacc
  | cons e rest ih =>
    rw [legacyRun_cons]
    have hrest : ∀ f ∈ rest, f.isPrice = true := fun f hf => hpost f (List.mem_cons_of_mem _ hf)
    by_cases ha : e.isAccepted = true
    · exact legacyRun_price_recomputed rest _ q (legacyStep_accepted s e q hq ha) hrest
    · refine ih _ (legacyStep_price_sameBasis s e q hq (hpost e (List.mem_cons_self _ _)))
        hrest ?_
      obtain ⟨f, hf, hfa⟩ := hacc
      rcases List.mem_cons.mp hf with rfl | hf
      · exact absurd hfa ha
      · exact ⟨f, hf, hfa⟩

theorem activeRun_portfolio (es : List ActiveEvent) (a : ActiveState) :
    (activeRun a es).portfolio = (lastActiveSnapshot es).getD a.portfolio := by
  induction es generalizing a with
  | nil => rfl
  | cons e rest ih =>
    have hr : activeRun a (e :: rest) = activeRun (activeStep a e) rest := rfl
    rw [hr, ih]
    cases hl : lastActiveSnapshot rest with
    | some p => simp [lastActiveSnapshot, hl]
    | none => cases e <;> simp [lastActiveSnapshot, hl, activeStep]

/-- C4 as stated fails on the handlers of the earlier versions: after the
snapshot with the holding `TSLA` (`qty = 2`, `avg_cost = 200`), the full price
map `{TSLA: 250}` and then the full price map `{GOOG: 100}`, the view still shows
`TSLA` at the earlier price `250`, whereas the view computed from the last
snapshot and the current store `{GOOG: 100}` shows it at `0`. -/
theorem legacy_view_keeps_dropped_price :
    lastSnapshot
        [LegacyEvent.portfolioUpdate
          (some ⟨some 0, some 0, RawHoldings.seq [⟨"TSLA", some 2, some 200, none, none⟩],
            none⟩),
         LegacyEvent.prices (some [("TSLA", 250)]),
         LegacyEvent.prices (some [("GOOG", 100)])]
      = some (some ⟨some 0, some 0,
          RawHoldings.seq [⟨"TSLA", some 2, some 200, none, none⟩], none⟩) ∧
    (legacyRun LegacyState.mount
        [LegacyEvent.portfolioUpdate
          (some ⟨some 0, some 0, RawHoldings.seq [⟨"TSLA", some 2, some 200, none, none⟩],
            none⟩),
         LegacyEvent.prices (some [("TSLA", 250)]),
         LegacyEvent.prices (some [("GOOG", 100)])]).portfolio ≠
      recalcPortfolioWithPrices
        (normalizePortfolio (some ⟨some 0, some 0,
          RawHoldings.seq [⟨"TSLA", some 2, some 200, none, none⟩], none⟩))
        (legacyRun LegacyState.mount
          [LegacyEvent.portfolioUpdate
            (some ⟨some 0, some 0,
              RawHoldings.seq [⟨"TSLA", some 2, some 200, none, none⟩], none⟩),
           LegacyEvent.prices (some [("TSLA", 250)]),
           LegacyEvent.prices (some [("GOOG", 100)])]).prices := by
  refine ⟨rfl, fun h => ?_⟩
  have g := congrArg (fun p => p.holdings.map Holding.current_price) h
  simp [legacyRun, legacyStep, LegacyState.mount, normalizePortfolio, normalizeHoldings,
    normalizeHolding, recalcPortfolioWithPrices, recalcHolding, lookup_cons_ite] at g

theorem recalcHolding_unpriced (P : PriceMap) (h : Holding)
    (hP : P.lookup h.ticker = none) :
    (recalcHolding P h).ticker = h.ticker ∧
      (recalcHolding P h).current_price = h.current_price := by
  simp [recalcHolding, hP]

/-- A price event after which the store has no price for a holding's ticker
leaves the holding's `current_price` unchanged. -/
theorem legacyStep_keeps_unpriced (s : LegacyState) (e : LegacyEvent) (i : ℕ)
    (H : Holding) (hH : s.portfolio.holdings[i]? = some H) (he : e.isPrice = true)
    (hno : (legacyStep s e).prices.lookup H.ticker = none) :
    ∃ H', (legacyStep s e).portfolio.holdings[i]? = some H' ∧
      H'.ticker = H.ticker ∧ H'.current_price = H.current_price := by
  cases e with
  | stockUpdate payload =>
    cases payload with
    | none => exact ⟨H, hH, rfl, rfl⟩
    | some d =>
      have hr := recalcHolding_unpriced (mergePrices s.prices d) H hno
      refine ⟨recalcHolding (mergePrices s.prices d) H, ?_, hr.1, hr.2⟩
      simp [legacyStep, recalc_holdings, List.getElem?_map, hH]
  | prices all =>
    cases all with
    | none => exact ⟨H, hH, rfl, rfl⟩
    | some d =>
      have hr := recalcHolding_unpriced d H hno
      refine ⟨recalcHolding d H, ?_, hr.1, hr.2⟩
      simp [legacyStep, recalc_holdings, List.getElem?_map, hH]
  | portfolioUpdate p => simp [LegacyEvent.isPrice] at he

/-- A holding keeps its `current_price` through a run of price events after
each of which the store has no price for its ticker. -/
theorem legacyRun_keeps_unpriced (post : List LegacyEvent) (s : LegacyState) (i : ℕ)
    (H : Holding) (hH : s.portfolio.holdings[i]? = some H)
    (hpost : ∀ e ∈ post, e.isPrice = true)
    (hno : ∀ k, 0 < k → k ≤ post.length →
      (legacyRun s (post.take k)).prices.lookup H.ticker = none) :
    ∃ H', (legacyRun s post).portfolio.holdings[i]? = some H' ∧
      H'.ticker = H.ticker ∧ H'.current_price = H.current_price := by
  induction post generalizing s H with
  | nil => exact ⟨H, hH, rfl, rfl⟩
  | cons e rest ih =>
    have h1 : (legacyStep s e).prices.lookup H.ticker = none := by
      have := hno 1 (by norm_num) (by simp)
      simpa [legacyRun] using this
    obtain ⟨H1, hH1, ht1, hc1⟩ :=
      legacyStep_keeps_unpriced s e i H hH (hpost e (List.mem_cons_self _ _)) h1
    obtain ⟨H', hH', ht', hc'⟩ := ih (legacyStep s e) H1 hH1
      (fun f hf => hpost f (List.mem_cons_of_mem _ hf))
      (fun k hk0 hk => by
        have := hno (k + 1) (by omega) (by simp; omega)
        rw [ht1]
        simpa [List.take_succ_cons, legacyRun_cons] using this)
    exact ⟨H', by rw [legacyRun_cons]; exact hH', ht'.trans ht1, hc'.trans hc1⟩

/-- C4, amended.  In the earlier versions, after every sequence of events in
which the last snapshot is followed by at least one accepted price event (and
by price events only): the view has the cash, realized value and holdings'
tickers, quantities and average costs of the normalized last snapshot; every
holding whose ticker has a price in the current price store is the holding of
`recalcPortfolioWithPrices (normalizePortfolio lastSnapshot) currentStore` at
the same position; and when every holding's ticker has a price in the current
store the whole view equals that recomputation.  A holding keeps its
`current_price` through every run of price events after each of which the
store has no price for its ticker.  In the active version, after every
sequence of events that contains a snapshot, the portfolio cell is the last
snapshot as received. -/
theorem view_after_events :
    (∀ (s : LegacyState) (pre post : List LegacyEvent) (S : Option RawSnapshot),
      (∀ e ∈ post, e.isPrice = true) → (∃ e ∈ post, e.isAccepted = true) →
      (legacyRun s (pre ++ LegacyEvent.portfolioUpdate S :: post)).portfolio.sameBasis
          (normalizePortfolio S) ∧
      (∀ (i : ℕ) (H : Holding),
        (recalcPortfolioWithPrices (normalizePortfolio S)
          (legacyRun s (pre ++ LegacyEvent.portfolioUpdate S :: post)).prices).holdings[i]?
            = some H →
        ((legacyRun s (pre ++ LegacyEvent.portfolioUpdate S :: post)).prices.lookup
          H.ticker).isSome →
        (legacyRun s (pre ++ LegacyEvent.portfolioUpdate S :: post)).portfolio.holdings[i]?
          = some H) ∧
      ((∀ h ∈ (normalizePortfolio S).holdings,
          ((legacyRun s (pre ++ LegacyEvent.portfolioUpdate S :: post)).prices.lookup
            h.ticker).isSome) →
        (legacyRun s (pre ++ LegacyEvent.portfolioUpdate S :: post)).portfolio =
          recalcPortfolioWithPrices (normalizePortfolio S)
            (legacyRun s (pre ++ LegacyEvent.portfolioUpdate S :: post)).prices)) ∧
    (∀ (s : LegacyState) (post : List LegacyEvent) (i : ℕ) (H : Holding),
      s.portfolio.holdings[i]? = some H → (∀ e ∈ post, e.isPrice = true) →
      (∀ k, 0 < k → k ≤ post.length →
        (legacyRun s (post.take k)).prices.lookup H.ticker = none) →
      ∃ H', (legacyRun s post).portfolio.holdings[i]? = some H' ∧
        H'.ticker = H.ticker ∧ H'.current_price = H.current_price) ∧
    (∀ (a : ActiveState) (es : List ActiveEvent) (S : Option RawSnapshot),
      lastActiveSnapshot es = some S → (activeRun a es).portfolio = S) := by
  refine ⟨?_, ?_, ?_⟩
  · intro s pre post S hpost hacc
    have hrun : legacyRun s (pre ++ LegacyEvent.portfolioUpdate S :: post) =
        legacyRun (legacyStep (legacyRun s pre) (LegacyEvent.portfolioUpdate S)) post := by
      rw [legacyRun_append, legacyRun_cons]
    rw [hrun]
    have h0 : (legacyStep (legacyRun s pre)
        (LegacyEvent.portfolioUpdate S)).portfolio.sameBasis (normalizePortfolio S) :=
      recalc_sameBasis _ _
    have hrec := legacyRun_price_accepted post _ _ h0 hpost hacc
    refine ⟨recomputedFrom_sameBasis hrec, ?_, ?_⟩
    · intro i H hH hp
      obtain ⟨r, hr, hs⟩ := hrec
      rw [hs, recalc_holdings, List.getElem?_map]
      rw [recalc_holdings, List.getElem?_map, Option.map_eq_some'] at hH
      obtain ⟨y, hy, rfl⟩ := hH
      have hb := congrArg (fun l => l[i]?) hr.2.2
      simp only [List.getElem?_map, hy, Option.map_some'] at hb
      rw [Option.map_eq_some'] at hb
      obtain ⟨x, hx, hxy⟩ := hb
      rw [hx, Option.map_some', recalcHolding_congr _ x y hxy hp]
    · intro hp
      obtain ⟨r, hr, hs⟩ := hrec
      rw [hs]
      exact recalc_congr _ r _ hr hp
  · intro s post i H hH hpost hno
    exact legacyRun_keeps_unpriced post s i H hH hpost hno
  · intro a es S h
    rw [activeRun_portfolio, h]
    rfl

/-- C4, amended, on the snapshot with the holding `TSLA` (`qty = 2`,
`avg_cost = 200`) followed by the price delta `{TSLA: 250}`: the view is the one
computed from the snapshot and the store, with `TSLA` at `250`; and from a view
showing `TSLA` at `250` the full price map `{GOOG: 100}` leaves it at `250`. -/
theorem view_after_events_witness :
    (legacyRun LegacyState.mount
        ([] ++ LegacyEvent.portfolioUpdate
          (some ⟨some 0, some 0, RawHoldings.seq [⟨"TSLA", some 2, some 200, none, none⟩],
            none⟩) ::
         [LegacyEvent.stockUpdate (some [("TSLA", 250)])])).portfolio =
      recalcPortfolioWithPrices
        (normalizePortfolio (some ⟨some 0, some 0,
          RawHoldings.seq [⟨"TSLA", some 2, some 200, none, none⟩], none⟩))
        (legacyRun LegacyState.mount
          ([] ++ LegacyEvent.portfolioUpdate
            (some ⟨some 0, some 0,
              RawHoldings.seq [⟨"TSLA", some 2, some 200, none, none⟩], none⟩) ::
           [LegacyEvent.stockUpdate (some [("TSLA", 250)])])).prices ∧
    (legacyRun LegacyState.mount
        ([] ++ LegacyEvent.portfolioUpdate
          (some ⟨some 0, some 0, RawHoldings.seq [⟨"TSLA", some 2, some 200, none, none⟩],
            none⟩) ::
         [LegacyEvent.stockUpdate (some [("TSLA", 250)])])).portfolio.holdings.map
      Holding.current_price = [250] ∧
    (∃ H', (legacyRun ⟨[("TSLA", 250)], ⟨0, 0, [⟨"TSLA", 2, 200, 250, 100⟩], 100⟩, []⟩
        [LegacyEvent.prices (some [("GOOG", 100)])]).portfolio.holdings[0]? = some H' ∧
      H'.ticker = "TSLA" ∧ H'.current_price = 250) := by
  refine ⟨(view_after_events.1 LegacyState.mount []
    [LegacyEvent.stockUpdate (some [("TSLA", 250)])]
    (some ⟨some 0, some 0, RawHoldings.seq [⟨"TSLA", some 2, some 200, none, none⟩], none⟩)
    (by simp [LegacyEvent.isPrice]) (by simp [LegacyEvent.isAccepted])).2.2 ?_, ?_, ?_⟩
  · simp [legacyRun, legacyStep, LegacyState.mount, normalizePortfolio, normalizeHoldings,
      normalizeHolding, mergePrices, setPrice, lookup_cons_ite]
  · simp [legacyRun, legacyStep, LegacyState.mount, normalizePortfolio, normalizeHoldings,
      normalizeHolding, recalcPortfolioWithPrices, recalcHolding, mergePrices, setPrice,
      lookup_cons_ite]
  · exact view_after_events.2.1
      ⟨[("TSLA", 250)], ⟨0, 0, [⟨"TSLA", 2, 200, 250, 100⟩], 100⟩, []⟩
      [LegacyEvent.prices (some [("GOOG", 100)])] 0 ⟨"TSLA", 2, 200, 250, 100⟩ rfl
      (by simp [LegacyEvent.isPrice])
      (by
        intro k hk0 hk
        have hk1 : k = 1 := by
          simp only [List.length_singleton] at hk
          omega
        subst hk1
        rfl)

/-- The handlers of the earlier versions are order dependent, against their
comment "normalize then recalc using live prices" (line 137): from the state at
mount, the price delta `{TSLA: 250}` followed by the snapshot with the holding
`TSLA` (`qty = 2`, `avg_cost = 200`) leaves `TSLA` at price `0` with
`unrealized = -400`, and the snapshot followed by the delta leaves it at price
`250` with `unrealized = 100`. -/
theorem legacy_delta_snapshot_order_differs :
    (legacyRun LegacyState.mount
        [LegacyEvent.stockUpdate (some [("TSLA", 250)]),
         LegacyEvent.portfolioUpdate
          (some ⟨some 0, some 0, RawHoldings.seq [⟨"TSLA", some 2, some 200, none, none⟩],
            none⟩)]).portfolio
      = ⟨0, 0, [⟨"TSLA", 2, 200, 0, -400⟩], -400⟩ ∧
    (legacyRun LegacyState.mount
        [LegacyEvent.portfolioUpdate
          (some ⟨some 0, some 0, RawHoldings.seq [⟨"TSLA", some 2, some 200, none, none⟩],
            none⟩),
         LegacyEvent.stockUpdate (some [("TSLA", 250)])]).portfolio
      = ⟨0, 0, [⟨"TSLA", 2, 200, 250, 100⟩], 100⟩ := by
  have a1 : fadd 0 (-400) = -400 := by
    unfold fadd
    rw [fl_of_int _ (-400) (by norm_num) (by norm_num)]; norm_num
  have a2 : fadd 0 100 = 100 := by
    unfold fadd
    rw [fl_of_int _ 100 (by norm_num) (by norm_num)]; norm_num
  have p1 : plusToFixed2 (-400) = -400 :=
    plusToFixed2_of_int (-400) (-400) (by norm_num) (by norm_num)
  have p2 : plusToFixed2 100 = 100 :=
    plusToFixed2_of_int 100 100 (by norm_num) (by norm_num)
  constructor
  · simp [legacyRun, legacyStep, LegacyState.mount, normalizePortfolio, normalizeHoldings,
      normalizeHolding, recalcPortfolioWithPrices, recalcHolding, addUnrealized,
      mergePrices, setPrice, lookup_cons_ite]
    rw [recalc_value_neg_400, a1, p1]
    exact ⟨rfl, rfl⟩
  · simp [legacyRun, legacyStep, LegacyState.mount, normalizePortfolio, normalizeHoldings,
      normalizeHolding, recalcPortfolioWithPrices, recalcHolding, addUnrealized,
      mergePrices, setPrice, lookup_cons_ite]
    rw [recalc_value_100, a2, p2]
    exact ⟨rfl, rfl⟩

/-- C5: in the executing handlers (lines 808-810), for every starting state,
every raw snapshot `S` and every price delta `D`, processing the price delta and
then the portfolio snapshot leaves the same portfolio view as processing the
snapshot and then the delta: the view is `S` as received, and the whole state
is the same in both orders. -/
theorem active_delta_snapshot_order (a : ActiveState) (D : PriceMap)
    (S : Option RawSnapshot) :
    (activeRun a [ActiveEvent.stockUpdate D, ActiveEvent.portfolioUpdate S]).portfolio
      = (activeRun a [ActiveEvent.portfolioUpdate S, ActiveEvent.stockUpdate D]).portfolio ∧
    (activeRun a [ActiveEvent.stockUpdate D, ActiveEvent.portfolioUpdate S]).portfolio = S ∧
    activeRun a [ActiveEvent.stockUpdate D, ActiveEvent.portfolioUpdate S]
      = activeRun a [ActiveEvent.portfolioUpdate S, ActiveEvent.stockUpdate D] := by
  refine ⟨rfl, rfl, rfl⟩

/-! ## Frame and idempotence of `recalcPortfolioWithPrices` -/

/-- C15: for every portfolio view and price map, `recalcPortfolioWithPrices`
returns a view with the same `cash` and `realized`, the same number of
holdings, and at every position a holding with the same `ticker`, `qty` and
`avg_cost` as the input holding at that position. -/
theorem recalc_frame (p : Portfolio) (P : PriceMap) :
    (recalcPortfolioWithPrices p P).cash = p.cash ∧
    (recalcPortfolioWithPrices p P).realized = p.realized ∧
    (recalcPortfolioWithPrices p P).holdings.length = p.holdings.length ∧
    (recalcPortfolioWithPrices p P).holdings.map Holding.ticker
      = p.holdings.map Holding.ticker ∧
    (recalcPortfolioWithPrices p P).holdings.map Holding.qty
      = p.holdings.map Holding.qty ∧
    (recalcPortfolioWithPrices p P).holdings.map Holding.avg_cost
      = p.holdings.map Holding.avg_cost := by
  refine ⟨rfl, rfl, ?_, ?_, ?_, ?_⟩
  · simp [recalc_holdings]
  · simp [recalc_holdings, Function.comp_def, recalcHolding]
  · simp [recalc_holdings, Function.comp_def, recalcHolding]
  · simp [recalc_holdings, Function.comp_def, recalcHolding]

theorem recalcHolding_idem (P : PriceMap) (h : Holding) :
    recalcHolding P (recalcHolding P h) = recalcHolding P h := by
  cases hl : P.lookup h.ticker with
  | none => simp [recalcHolding, hl]
  | some v => simp [recalcHolding, hl]

/-- C18: `recalcPortfolioWithPrices` is idempotent in the price map: for every
portfolio view `p` and price map `P`, recomputing the recomputed view with `P`
returns it unchanged. -/
theorem recalc_idempotent (p : Portfolio) (P : PriceMap) :
    recalcPortfolioWithPrices (recalcPortfolioWithPrices p P) P
      = recalcPortfolioWithPrices p P := by
  have hm : (p.holdings.map (recalcHolding P)).map (recalcHolding P)
      = p.holdings.map (recalcHolding P) := by
    rw [List.map_map]
    exact List.map_congr_left (fun h _ => recalcHolding_idem P h)
  simp only [recalcPortfolioWithPrices, hm]

/-! ## Claims on the history store -/

/-- C16 as stated fails on the active handler `socket.on("historyUpdate",
setHistory)`: from the store `{GOOG: [100, 101]}` the delta `{TSLA: [250]}`,
which has no entry for `GOOG`, leaves `GOOG` without a series. -/
theorem active_historyUpdate_drops_absent :
    List.lookup "GOOG" [("TSLA", [(250 : ℚ)])] = none ∧
    (ActiveState.mk [] [("GOOG", [100, 101])] none).history.lookup "GOOG"
      = some [100, 101] ∧
    (activeStep (ActiveState.mk [] [("GOOG", [100, 101])] none)
      (ActiveEvent.historyUpdate [("TSLA", [250])])).history.lookup "GOOG" = none := by
  refine ⟨by decide, ?_, by decide⟩
  simp [List.lookup]

/-- C16, amended.  In the active version the `historyUpdate` handler replaces
the history store by the payload: each instrument of the payload has exactly
the payload's series (not appended to the old one) and every other instrument
has none.  In the earlier versions the chart keeps the series of the selected
instrument only: a payload with an entry for the selected instrument replaces
the series by that entry (not appended), and any other payload leaves it
unchanged. -/
theorem historyUpdate_store :
    (∀ (a : ActiveState) (payload : HistoryMap) (t : String),
      (activeStep a (ActiveEvent.historyUpdate payload)).history.lookup t
        = payload.lookup t) ∧
    (∀ (s : LegacyChart) (payload : HistoryMap) (series : List ℚ),
      s.selectedTicker ≠ "" → payload.lookup s.selectedTicker = some series →
      (legacyHistoryUpdate s (some payload)).history = series) ∧
    (∀ (s : LegacyChart) (payload : HistoryMap),
      payload.lookup s.selectedTicker = none →
      (legacyHistoryUpdate s (some payload)).history = s.history) := by
  refine ⟨fun a payload t => rfl, fun s payload series hs hl => ?_, fun s payload hl => ?_⟩
  · simp [legacyHistoryUpdate, hs, hl]
  · by_cases hs : s.selectedTicker = ""
    · simp [legacyHistoryUpdate, hs]
    · simp [legacyHistoryUpdate, hs, hl]

/-- C16, amended, on the earlier chart showing `TSLA` with the series
`[240, 245]`: the payload `{TSLA: [245, 250]}` replaces the series, and the
payload `{GOOG: [100]}` leaves it unchanged. -/
theorem historyUpdate_store_witness :
    (legacyHistoryUpdate ⟨"TSLA", [240, 245]⟩ (some [("TSLA", [245, 250])])).history
      = [245, 250] ∧
    (legacyHistoryUpdate ⟨"TSLA", [240, 245]⟩ (some [("GOOG", [100])])).history
      = [240, 245] :=
  ⟨historyUpdate_store.2.1 ⟨"TSLA", [240, 245]⟩ [("TSLA", [245, 250])] [245, 250]
      (by decide) (by simp [List.lookup]),
    historyUpdate_store.2.2 ⟨"TSLA", [240, 245]⟩ [("GOOG", [100])] (by decide)⟩

/-! ## Claims on `doTrade` -/

theorem isInteger_natCast (n : ℕ) : isInteger (n : ℚ) = true := by
  simp [isInteger]

theorem exists_nat_of_isInteger (q : ℚ) (hi : isInteger q = true) (hq : 0 < q) :
    ∃ n : ℕ, 0 < n ∧ q = (n : ℚ) := by
  simp only [isInteger, decide_eq_true_eq] at hi
  have hz : (0 : ℤ) < ⌊q⌋ := by
    have : (0 : ℚ) < ((⌊q⌋ : ℤ) : ℚ) := by rw [hi]; exact hq
    exact_mod_cast this
  refine ⟨(⌊q⌋).toNat, ?_, ?_⟩
  · omega
  · have h2 : (((⌊q⌋).toNat : ℤ) : ℚ) = ((⌊q⌋ : ℤ) : ℚ) := by
      rw [Int.toNat_of_nonneg hz.le]
    rw [← hi]
    exact_mod_cast h2.symm

/-- C17: `doTrade` rejects locally, with the message `'Invalid quantity'`, no
request and the portfolio unchanged, whenever `Number(qty)` is not a positive
integer; and whenever it is a positive integer `n` and an instrument is
selected it issues the request `{ type, ticker: selectedTicker, qty: n }`. -/
theorem doTrade_guard :
    (∀ (s : TradePanel) (type : String),
      (¬ ∃ n : ℕ, 0 < n ∧ s.qty = some (n : ℚ)) →
      (doTrade s type).request = none ∧
      (doTrade s type).panel.tradeMsg = "Invalid quantity" ∧
      (doTrade s type).panel.portfolio = s.portfolio) ∧
    (∀ (s : TradePanel) (type : String) (n : ℕ),
      0 < n → s.qty = some (n : ℚ) → s.selectedTicker ≠ "" →
      (doTrade s type).request = some ⟨type, s.selectedTicker, (n : ℚ)⟩ ∧
      (doTrade s type).panel.portfolio = s.portfolio) := by
  constructor
  · intro s type hn
    cases hq : s.qty with
    | none => simp [doTrade, hq]
    | some q =>
      by_cases hg : s.selectedTicker = "" ∨ isInteger q = false ∨ q ≤ 0
      · simp only [doTrade, hq, if_pos hg, and_self]
      · exfalso
        simp only [not_or, Bool.not_eq_false, not_le] at hg
        obtain ⟨n, hn0, hqn⟩ := exists_nat_of_isInteger q hg.2.1 hg.2.2
        exact hn ⟨n, hn0, by rw [hq, hqn]⟩
  · intro s type n hn hq hs
    have hpos : ¬ ((n : ℚ) ≤ 0) := by
      have : (0 : ℚ) < (n : ℚ) := by exact_mod_cast hn
      exact not_le.mpr this
    have hg : ¬ (s.selectedTicker = "" ∨ isInteger (n : ℚ) = false ∨ (n : ℚ) ≤ 0) := by
      simp [hs, isInteger_natCast, hpos]
    simp only [doTrade, hq, if_neg hg, and_self]

/-- C17 on the quantities `1.5` and `3` with `TSLA` selected: the first is
rejected with `'Invalid quantity'` and no request, the second is sent as
`{ type: 'buy', ticker: 'TSLA', qty: 3 }`. -/
theorem doTrade_guard_witness :
    ((doTrade ⟨"TSLA", some (3 / 2), "", ⟨0, 0, [], 0⟩⟩ "buy").request = none ∧
      (doTrade ⟨"TSLA", some (3 / 2), "", ⟨0, 0, [], 0⟩⟩ "buy").panel.tradeMsg
        = "Invalid quantity") ∧
    (doTrade ⟨"TSLA", some ((3 : ℕ) : ℚ), "", ⟨0, 0, [], 0⟩⟩ "buy").request
      = some ⟨"buy", "TSLA", ((3 : ℕ) : ℚ)⟩ := by
  constructor
  · have h := doTrade_guard.1 ⟨"TSLA", some (3 / 2), "", ⟨0, 0, [], 0⟩⟩ "buy" (by
      rintro ⟨n, _, hq⟩
      simp only [Option.some.injEq] at hq
      have h2 : (3 : ℚ) = 2 * (n : ℚ) := by linarith
      have h3 : (3 : ℕ) = 2 * n := by exact_mod_cast h2
      omega)
    exact ⟨h.1, h.2.1⟩
  · exact (doTrade_guard.2 ⟨"TSLA", some ((3 : ℕ) : ℚ), "", ⟨0, 0, [], 0⟩⟩ "buy" 3
      (by decide) rfl (by decide)).1

/-! ## Claims on the trending computation -/

theorem trendStep_eq (history : HistoryMap) (acc : Option String × JsNum) (t : String) :
    trendStep history acc t =
      match loopPercent history t with
      | none => acc
      | some p => if p.gt acc.2 then (some t, p) else acc := by
  unfold trendStep loopPercent
  cases history.lookup t with
  | none => rfl
  | some h =>
    by_cases hl : h.length < 6
    · simp [hl]
    · simp [hl]

theorem gt_nan_left (y : JsNum) : JsNum.nan.gt y = false := by
  cases y <;> rfl

theorem gt_negInf_left (y : JsNum) : JsNum.negInf.gt y = false := by
  cases y <;> rfl

theorem gt_posInf_right (x : JsNum) : x.gt JsNum.posInf = false := by
  cases x <;> rfl

theorem gt_fin_fin (a b : ℚ) : (JsNum.fin a).gt (JsNum.fin b) = decide (b < a) := rfl

theorem loopPercent_some (history : HistoryMap) (t : String) (h : List ℚ)
    (hl : history.lookup t = some h) (h6 : 6 ≤ h.length) :
    loopPercent history t
      = some (jsDiv (fsub (h.getD (h.length - 1) 0) (h.getD (h.length - 6) 0))
        (h.getD (h.length - 6) 0)).times100 := by
  have hn : ¬ h.length < 6 := by omega
  simp only [loopPercent, hl, if_neg hn]

theorem jsDiv_zero_pos (a : ℚ) (ha : 0 < a) : jsDiv a 0 = JsNum.posInf := by
  simp only [jsDiv, if_pos ha, if_true]

theorem jsDiv_zero_neg (a : ℚ) (ha : a < 0) : jsDiv a 0 = JsNum.negInf := by
  simp only [jsDiv, if_neg (not_lt.mpr ha.le), if_pos ha, if_true]

theorem jsDiv_zero_zero : jsDiv 0 0 = JsNum.nan := by
  simp only [jsDiv, if_neg (lt_irrefl (0 : ℚ)), if_true]

theorem jsDiv_ne_zero (a b : ℚ) (hb : b ≠ 0) : jsDiv a b = JsNum.fin (fdiv a b) := by
  simp only [jsDiv, if_neg hb]

/-- The percent change computed by the loop, by the sign of a zero `old`. -/
theorem loopPercent_of_series (history : HistoryMap) (t : String) (h : List ℚ)
    (hl : history.lookup t = some h) (h6 : 6 ≤ h.length) :
    (h.getD (h.length - 6) 0 = 0 → 0 < h.getD (h.length - 1) 0 →
      loopPercent history t = some JsNum.posInf) ∧
    (h.getD (h.length - 6) 0 = 0 → h.getD (h.length - 1) 0 ≤ 0 →
      loopPercent history t = some JsNum.negInf ∨
      loopPercent history t = some JsNum.nan) ∧
    (h.getD (h.length - 6) 0 ≠ 0 →
      loopPercent history t = some (JsNum.fin
        (fmul (fdiv (fsub (h.getD (h.length - 1) 0) (h.getD (h.length - 6) 0))
          (h.getD (h.length - 6) 0)) 100))) := by
  rw [loopPercent_some history t h hl h6]
  generalize h.getD (h.length - 6) 0 = old
  generalize h.getD (h.length - 1) 0 = cur
  refine ⟨fun h0 hc => ?_, fun h0 hc => ?_, fun h0 => ?_⟩
  · subst h0
    have hp : 0 < fsub cur 0 := by
      unfold fsub; rw [sub_zero]; exact fl_pos cur hc
    rw [jsDiv_zero_pos _ hp]
    rfl
  · subst h0
    rcases lt_or_eq_of_le hc with hc | hc
    · left
      have hn : fsub cur 0 < 0 := by
        unfold fsub; rw [sub_zero]; exact fl_neg cur hc
      rw [jsDiv_zero_neg _ hn]
      rfl
    · right
      have hz : fsub cur 0 = 0 := by
        unfold fsub; rw [sub_zero, hc, fl_zero]
      rw [hz, jsDiv_zero_zero]
      rfl
  · rw [jsDiv_ne_zero _ _ h0]
    rfl

/-- The loop's percent change of an instrument: the computed percent change of
a qualifying instrument, and nothing, `Infinity`, `-Infinity` or `NaN` for an
instrument that does not qualify. -/
theorem loopPercent_spec (history : HistoryMap) (t : String) :
    (loopPercent history t = none ∧ doublePercent history t = none) ∨
    (∃ v, loopPercent history t = some (JsNum.fin v) ∧ doublePercent history t = some v) ∨
    ((loopPercent history t = some JsNum.posInf ∨ loopPercent history t = some JsNum.negInf
        ∨ loopPercent history t = some JsNum.nan) ∧ doublePercent history t = none) := by
  cases hl : history.lookup t with
  | none => left; simp only [loopPercent, doublePercent, hl, and_self]
  | some h =>
    by_cases h6 : h.length < 6
    · left; simp only [loopPercent, doublePercent, hl, if_pos h6, and_self]
    · have hc := loopPercent_of_series history t h hl (by omega)
      by_cases h0 : h.getD (h.length - 6) 0 = 0
      · right; right
        refine ⟨?_, by simp only [doublePercent, hl, if_neg h6, if_pos h0]⟩
        by_cases hp : 0 < h.getD (h.length - 1) 0
        · exact Or.inl (hc.1 h0 hp)
        · exact Or.inr (hc.2.1 h0 (not_lt.mp hp))
      · right; left
        exact ⟨_, hc.2.2 h0, by simp only [doublePercent, hl, if_neg h6, if_neg h0]⟩

/-- The computed percent change of a qualifying instrument has the sign of the
exact one. -/
theorem doublePercent_pos (history : HistoryMap) (t : String) (m : ℚ)
    (hm : doublePercent history t = some m) (hpos : 0 < m) :
    ∃ v, specPercent history t = some v ∧ 0 < v := by
  cases hl : history.lookup t with
  | none => simp only [doublePercent, hl] at hm; cases hm
  | some h =>
    by_cases h6 : h.length < 6
    · simp only [doublePercent, hl, if_pos h6] at hm; cases hm
    · by_cases h0 : h.getD (h.length - 6) 0 = 0
      · simp only [doublePercent, hl, if_neg h6, if_pos h0] at hm; cases hm
      · simp only [doublePercent, hl, if_neg h6, if_neg h0, Option.some.injEq] at hm
        refine ⟨(h.getD (h.length - 1) 0 - h.getD (h.length - 6) 0)
          / h.getD (h.length - 6) 0 * 100,
          by simp only [specPercent, hl, if_neg h6, if_neg h0], ?_⟩
        revert hm h0
        generalize h.getD (h.length - 6) 0 = old
        generalize h.getD (h.length - 1) 0 = cur
        intro h0 hm
        rw [← hm] at hpos
        simp only [fmul, fdiv, fsub, fl_pos_iff] at hpos
        have h1 : 0 < fl (fl (cur - old) / old) := by
          have : (0 : ℚ) < 100 := by norm_num
          exact (mul_pos_iff_of_pos_right this).mp hpos
        rw [fl_pos_iff] at h1
        have h2 : 0 < (cur - old) / old := by
          rcases div_pos_iff.mp h1 with ⟨hd, ho⟩ | ⟨hd, ho⟩
          · exact div_pos ((fl_pos_iff _).mp hd) ho
          · exact div_pos_of_neg_of_neg ((fl_neg_iff _).mp hd) ho
        positivity

/-- Appending an instrument that leaves the loop state unchanged. -/
theorem TrendInv_skip (history : HistoryMap) (done : List String)
    (acc : Option String × JsNum) (t : String) (hinv : TrendInv history done acc)
    (hle : ∀ m v, acc.2 = JsNum.fin m → doublePercent history t = some v → v ≤ m) :
    TrendInv history (done ++ [t]) acc := by
  obtain ⟨m, hm, hcase⟩ := hinv
  refine ⟨m, hm, ?_⟩
  cases hb : acc.1 with
  | none =>
    rw [hb] at hcase
    obtain ⟨h0, hall⟩ := hcase
    refine ⟨h0, fun u hu v hv => ?_⟩
    rcases List.mem_append.mp hu with hu | hu
    · exact hall u hu v hv
    · rw [List.mem_singleton] at hu
      subst hu
      exact h0 ▸ hle m v hm hv
  | some b =>
    rw [hb] at hcase
    obtain ⟨l1, l2, hd, hs, hpos, h1, h2⟩ := hcase
    refine ⟨l1, l2 ++ [t], by simp [hd], hs, hpos, h1, fun u hu v hv => ?_⟩
    rcases List.mem_append.mp hu with hu | hu
    · exact h2 u hu v hv
    · rw [List.mem_singleton] at hu
      subst hu
      exact hle m v hm hv

/-- One iteration keeps the invariant when the instrument's percent change is
not `Infinity`. -/
theorem TrendInv_step (history : HistoryMap) (done : List String)
    (acc : Option String × JsNum) (t : String) (hinv : TrendInv history done acc)
    (hz : loopPercent history t ≠ some JsNum.posInf) :
    TrendInv history (done ++ [t]) (trendStep history acc t) := by
  rw [trendStep_eq]
  rcases loopPercent_spec history t with ⟨hl, hs⟩ | ⟨v, hl, hs⟩ | ⟨hl, hs⟩
  · rw [hl]
    exact TrendInv_skip history done acc t hinv (fun m v _ hv => by simp [hs] at hv)
  · rw [hl]
    obtain ⟨m, hm, hcase⟩ := hinv
    simp only [hm, gt_fin_fin, decide_eq_true_eq]
    by_cases hgt : m < v
    · rw [if_pos hgt]
      refine ⟨v, rfl, ?_⟩
      show ∃ l1 l2, done ++ [t] = l1 ++ t :: l2 ∧ _
      cases hb : acc.1 with
      | none =>
        rw [hb] at hcase
        obtain ⟨h0, hall⟩ := hcase
        refine ⟨done, [], rfl, hs, by rw [h0] at hgt; exact hgt, fun u hu w hw => ?_,
          fun u hu => by simp at hu⟩
        have := hall u hu w hw
        rw [h0] at hgt
        linarith
      | some b =>
        rw [hb] at hcase
        obtain ⟨l1, l2, hd, hsb, hpos, h1, h2⟩ := hcase
        refine ⟨done, [], rfl, hs, by linarith, fun u hu w hw => ?_,
          fun u hu => by simp at hu⟩
        rw [hd] at hu
        rcases List.mem_append.mp hu with hu | hu
        · have := h1 u hu w hw
          linarith
        · rcases List.mem_cons.mp hu with hu | hu
          · subst hu
            rw [hsb] at hw
            cases hw
            exact hgt
          · have := h2 u hu w hw
            linarith
    · rw [if_neg hgt]
      refine TrendInv_skip history done acc t ⟨m, hm, hcase⟩ (fun m' w hm' hw => ?_)
      rw [hm] at hm'
      cases hm'
      rw [hs] at hw
      cases hw
      exact not_lt.mp hgt
  · have hgf : ∀ p, loopPercent history t = some p → p.gt acc.2 = false := by
      intro p hp
      rcases hl with h | h | h
      · exact absurd h hz
      · rw [h] at hp; cases hp; exact gt_negInf_left _
      · rw [h] at hp; cases hp; exact gt_nan_left _
    have hstay : (match loopPercent history t with
        | none => acc
        | some p => if p.gt acc.2 then (some t, p) else acc) = acc := by
      cases hp : loopPercent history t with
      | none => rfl
      | some p => simp [hgf p hp]
    rw [hstay]
    exact TrendInv_skip history done acc t hinv (fun m v _ hv => by simp [hs] at hv)

/-- The loop keeps the invariant over a list none of whose instruments makes
the percent change infinite. -/
theorem TrendInv_fold (history : HistoryMap) (rest done : List String)
    (acc : Option String × JsNum) (hinv : TrendInv history done acc)
    (hz : ∀ t ∈ rest, loopPercent history t ≠ some JsNum.posInf) :
    TrendInv history (done ++ rest) (rest.foldl (trendStep history) acc) := by
  induction rest generalizing done acc with
  | nil => simpa using hinv
  | cons t rest ih =>
    have h1 := TrendInv_step history done acc t hinv (hz t (List.mem_cons_self _ _))
    have h2 := ih (done ++ [t]) _ h1 (fun u hu => hz u (List.mem_cons_of_mem _ hu))
    simpa [List.append_assoc] using h2

theorem TrendInv_init (history : HistoryMap) :
    TrendInv history [] (none, JsNum.fin 0) :=
  ⟨0, rfl, rfl, fun u hu => by simp at hu⟩

theorem loopPercent_posInf (history : HistoryMap) (t : String)
    (hp : loopPercent history t = some JsNum.posInf) :
    ∃ h, history.lookup t = some h ∧ 6 ≤ h.length ∧
      h.getD (h.length - 6) 0 = 0 ∧ 0 < h.getD (h.length - 1) 0 := by
  cases hl : history.lookup t with
  | none => simp only [loopPercent, hl] at hp; cases hp
  | some h =>
    by_cases h6 : h.length < 6
    · simp only [loopPercent, hl, if_pos h6] at hp; cases hp
    · have hc := loopPercent_of_series history t h hl (by omega)
      refine ⟨h, rfl, by omega, ?_⟩
      by_cases h0 : h.getD (h.length - 6) 0 = 0
      · refine ⟨h0, ?_⟩
        by_contra hcur
        rcases hc.2.1 h0 (not_lt.mp hcur) with e | e
        · rw [e] at hp; cases hp
        · rw [e] at hp; cases hp
      · rw [hc.2.2 h0] at hp; cases hp

/-- No listed instrument reaches `Infinity` when every listed instrument with
at least 6 samples and `old = 0` has a last sample that is not positive. -/
theorem no_posInf_of_guarded (tickers : List String) (history : HistoryMap)
    (hz : ∀ t ∈ tickers, ∀ h, history.lookup t = some h → 6 ≤ h.length →
      h.getD (h.length - 6) 0 = 0 → h.getD (h.length - 1) 0 ≤ 0) :
    ∀ t ∈ tickers, loopPercent history t ≠ some JsNum.posInf := by
  intro t ht hp
  obtain ⟨h, hl, h6, h0, hc⟩ := loopPercent_posInf history t hp
  exact absurd (hz t ht h hl h6 h0) (not_le.mpr hc)

/-- One iteration either keeps the loop state or records the instrument. -/
theorem trendStep_cases (history : HistoryMap) (acc : Option String × JsNum) (t : String) :
    trendStep history acc t = acc ∨
    ∃ p, loopPercent history t = some p ∧ p.gt acc.2 = true ∧
      trendStep history acc t = (some t, p) := by
  rw [trendStep_eq]
  cases hp : loopPercent history t with
  | none => exact Or.inl rfl
  | some p =>
    by_cases hg : p.gt acc.2 = true
    · exact Or.inr ⟨p, rfl, hg, by simp [hg]⟩
    · exact Or.inl (by simp [hg])

theorem trendStep_skip (history : HistoryMap) (acc : Option String × JsNum) (t : String)
    (h : loopPercent history t = none ∨ loopPercent history t = some JsNum.negInf ∨
      loopPercent history t = some JsNum.nan) :
    trendStep history acc t = acc := by
  rw [trendStep_eq]
  rcases h with h | h | h
  · rw [h]
  · rw [h]; simp [gt_negInf_left]
  · rw [h]; simp [gt_nan_left]

theorem foldl_skip_all (history : HistoryMap) (l : List String)
    (acc : Option String × JsNum)
    (h : ∀ t ∈ l, ∀ a, trendStep history a t = a) :
    l.foldl (trendStep history) acc = acc := by
  induction l generalizing acc with
  | nil => rfl
  | cons t rest ih =>
    rw [List.foldl_cons, h t (List.mem_cons_self _ _)]
    exact ih acc (fun u hu => h u (List.mem_cons_of_mem _ hu))

theorem foldl_filter_skip (history : HistoryMap) (t : String) (l : List String)
    (acc : Option String × JsNum) (h : ∀ a, trendStep history a t = a) :
    l.foldl (trendStep history) acc
      = (l.filter (fun u => decide (u ≠ t))).foldl (trendStep history) acc := by
  induction l generalizing acc with
  | nil => rfl
  | cons x rest ih =>
    by_cases hx : x = t
    · subst hx
      simp only [List.foldl_cons, h, ne_eq, not_true_eq_false, decide_False,
        Bool.false_eq_true, not_false_eq_true, List.filter_cons_of_neg]
      exact ih acc
    · simp only [List.foldl_cons, ne_eq, hx, not_false_eq_true, decide_True,
        List.filter_cons_of_pos]
      exact ih _

/-- The instrument recorded by the loop is the initial one or a listed one. -/
theorem foldl_best_mem (history : HistoryMap) (l : List String)
    (acc : Option String × JsNum) (u : String)
    (h : (l.foldl (trendStep history) acc).1 = some u) : acc.1 = some u ∨ u ∈ l := by
  induction l generalizing acc with
  | nil => exact Or.inl h
  | cons x rest ih =>
    rw [List.foldl_cons] at h
    rcases ih _ h with h1 | h1
    · rcases trendStep_cases history acc x with e | ⟨p, _, _, e⟩
      · rw [e] at h1; exact Or.inl h1
      · rw [e] at h1
        simp only [Option.some.injEq] at h1
        exact Or.inr (h1 ▸ List.mem_cons_self _ _)
    · exact Or.inr (List.mem_cons_of_mem _ h1)

theorem trendStep_posInf_stays (history : HistoryMap) (acc : Option String × JsNum)
    (t : String) (h : acc.2 = JsNum.posInf) : trendStep history acc t = acc := by
  rcases trendStep_cases history acc t with e | ⟨p, _, hg, _⟩
  · exact e
  · rw [h, gt_posInf_right] at hg
    cases hg

theorem foldl_posInf_stays (history : HistoryMap) (l : List String)
    (acc : Option String × JsNum) (h : acc.2 = JsNum.posInf) :
    l.foldl (trendStep history) acc = acc := by
  induction l with
  | nil => rfl
  | cons t rest ih =>
    rw [List.foldl_cons, trendStep_posInf_stays history acc t h]
    exact ih

theorem gt_posInf_left (y : JsNum) (h1 : y ≠ JsNum.nan) (h2 : y ≠ JsNum.posInf) :
    JsNum.posInf.gt y = true := by
  cases y with
  | fin q => rfl
  | posInf => exact absurd rfl h2
  | negInf => rfl
  | nan => exact absurd rfl h1

theorem gt_ne_nan (p y : JsNum) (h : p.gt y = true) : p ≠ JsNum.nan := by
  intro e
  rw [e, gt_nan_left] at h
  cases h

/-- Once a listed instrument has the percent change `Infinity`, the loop ends
with `bestPct = Infinity` and a listed instrument as `best`. -/
theorem foldl_reaches_posInf (history : HistoryMap) (T : List String) (t : String)
    (hp : loopPercent history t = some JsNum.posInf) (l : List String)
    (acc : Option String × JsNum) (hnan : acc.2 ≠ JsNum.nan)
    (hacc : acc.2 = JsNum.posInf → ∃ u ∈ T, acc.1 = some u)
    (ht : t ∈ l) (hl : ∀ x ∈ l, x ∈ T) :
    (l.foldl (trendStep history) acc).2 = JsNum.posInf ∧
      ∃ u ∈ T, (l.foldl (trendStep history) acc).1 = some u := by
  induction l generalizing acc with
  | nil => simp at ht
  | cons x rest ih =>
    rw [List.foldl_cons]
    have hxT : x ∈ T := hl x (List.mem_cons_self _ _)
    have hnan' : (trendStep history acc x).2 ≠ JsNum.nan := by
      rcases trendStep_cases history acc x with e | ⟨p, _, hg, e⟩
      · rw [e]; exact hnan
      · rw [e]; exact gt_ne_nan p acc.2 hg
    have hacc' : (trendStep history acc x).2 = JsNum.posInf →
        ∃ u ∈ T, (trendStep history acc x).1 = some u := by
      rcases trendStep_cases history acc x with e | ⟨p, _, _, e⟩
      · rw [e]; exact hacc
      · rw [e]; exact fun _ => ⟨x, hxT, rfl⟩
    by_cases hinf : (trendStep history acc x).2 = JsNum.posInf
    · rw [foldl_posInf_stays history rest _ hinf]
      exact ⟨hinf, hacc' hinf⟩
    · have hxt : x ≠ t := by
        intro e
        subst e
        apply hinf
        by_cases ha : acc.2 = JsNum.posInf
        · rw [trendStep_posInf_stays history acc x ha]; exact ha
        · have hg := gt_posInf_left acc.2 hnan ha
          rw [trendStep_eq, hp]
          simp [hg]
      have ht' : t ∈ rest := by
        rcases List.mem_cons.mp ht with e | e
        · exact absurd e.symm hxt
        · exact e
      exact ih _ hnan' hacc' ht' (fun y hy => hl y (List.mem_cons_of_mem _ hy))

/-- C11 as stated fails: `GOOG` with the series `[0, 1, 2, 3, 4, 5]` has 6
samples and `old = 0`, yet it is returned as the trending instrument, with the
percent `Infinity`, whereas the computation without `GOOG` returns no signal. -/
theorem trending_returns_zero_old :
    List.lookup "GOOG" [("GOOG", [(0 : ℚ), 1, 2, 3, 4, 5])] = some [0, 1, 2, 3, 4, 5] ∧
    ([(0 : ℚ), 1, 2, 3, 4, 5]).getD (6 - 6) 0 = 0 ∧
    trending [("GOOG", [0, 1, 2, 3, 4, 5])] = some ⟨"GOOG", JsNum.posInf⟩ ∧
    trendingOver (TICKERS.filter (fun u => decide (u ≠ "GOOG")))
      [("GOOG", [0, 1, 2, 3, 4, 5])] = none := by
  refine ⟨by simp [List.lookup], by simp, ?_, ?_⟩
  · simp [trending, trendingOver, TICKERS, trendStep, List.lookup, jsDiv, JsNum.times100,
      JsNum.gt, JsNum.toFixed2, fsub, fl_pos_iff, fl_neg_iff]
  · simp [trendingOver, TICKERS, trendStep, List.lookup, List.filter]

/-- C11, amended.  A listed instrument whose series has at least 6 samples and
`old = 0` is skipped when its last sample `cur` is not positive: it is never
returned and the result equals the result computed with it removed from the
list.  When `cur` is positive its percent change is `Infinity`: the computation
then returns a listed instrument with the percent `Infinity` (the list not
containing the empty string).  No error is raised in either case. -/
theorem trending_zero_old :
    (∀ (tickers : List String) (history : HistoryMap) (t : String) (h : List ℚ),
      history.lookup t = some h → 6 ≤ h.length → h.getD (h.length - 6) 0 = 0 →
      h.getD (h.length - 1) 0 ≤ 0 →
      trendingOver tickers history
        = trendingOver (tickers.filter (fun u => decide (u ≠ t))) history ∧
      ∀ sig, trendingOver tickers history = some sig → sig.ticker ≠ t) ∧
    (∀ (tickers : List String) (history : HistoryMap) (t : String) (h : List ℚ),
      t ∈ tickers → "" ∉ tickers →
      history.lookup t = some h → 6 ≤ h.length → h.getD (h.length - 6) 0 = 0 →
      0 < h.getD (h.length - 1) 0 →
      ∃ u ∈ tickers, trendingOver tickers history = some ⟨u, JsNum.posInf⟩) := by
  constructor
  · intro tickers history t h hl h6 h0 hc
    have hskip : ∀ a, trendStep history a t = a := fun a =>
      trendStep_skip history a t
        (Or.inr ((loopPercent_of_series history t h hl h6).2.1 h0 hc))
    have heq : trendingOver tickers history
        = trendingOver (tickers.filter (fun u => decide (u ≠ t))) history := by
      simp only [trendingOver]
      rw [foldl_filter_skip history t tickers _ hskip]
    refine ⟨heq, fun sig hsig => ?_⟩
    rw [heq] at hsig
    simp only [trendingOver] at hsig
    cases hb : ((tickers.filter (fun u => decide (u ≠ t))).foldl (trendStep history)
        (none, JsNum.fin 0)).1 with
    | none => rw [hb] at hsig; cases hsig
    | some b =>
      rw [hb] at hsig
      by_cases hbe : b = ""
      · simp [hbe] at hsig
      · simp only [if_neg hbe, Option.some.injEq] at hsig
        rcases foldl_best_mem history _ _ b hb with hm | hm
        · cases hm
        · rw [← hsig]
          simpa using (List.mem_filter.mp hm).2
  · intro tickers history t h ht hempty hl h6 h0 hc
    have hp := (loopPercent_of_series history t h hl h6).1 h0 hc
    obtain ⟨hinf, u, hu, hbest⟩ := foldl_reaches_posInf history tickers t hp tickers
      (none, JsNum.fin 0) (by simp) (by simp) ht (fun x hx => hx)
    refine ⟨u, hu, ?_⟩
    have hne : u ≠ "" := fun e => hempty (e ▸ hu)
    simp only [trendingOver, hbest, hinf, if_neg hne, JsNum.toFixed2]

/-- C11, amended, on `TICKERS`: `GOOG = [0, 1, 2, 3, 4, 0]` is skipped, so only
`TSLA = [100, 101, 102, 103, 104, 110]` is returned, with `10`; and
`GOOG = [0, 1, 2, 3, 4, 5]` makes the result a signal with percent `Infinity`. -/
theorem trending_zero_old_witness :
    (trendingOver TICKERS
        [("GOOG", [0, 1, 2, 3, 4, 0]), ("TSLA", [100, 101, 102, 103, 104, 110])]
      = trendingOver (TICKERS.filter (fun u => decide (u ≠ "GOOG")))
        [("GOOG", [0, 1, 2, 3, 4, 0]), ("TSLA", [100, 101, 102, 103, 104, 110])]) ∧
    (∃ u ∈ TICKERS, trendingOver TICKERS [("GOOG", [0, 1, 2, 3, 4, 5])]
      = some ⟨u, JsNum.posInf⟩) :=
  ⟨(trending_zero_old.1 TICKERS
      [("GOOG", [0, 1, 2, 3, 4, 0]), ("TSLA", [100, 101, 102, 103, 104, 110])] "GOOG"
      [0, 1, 2, 3, 4, 0] (by simp [List.lookup]) (by simp) (by simp) (by simp)).1,
    trending_zero_old.2 TICKERS [("GOOG", [0, 1, 2, 3, 4, 5])] "GOOG" [0, 1, 2, 3, 4, 5]
      (by simp [TICKERS]) (by simp [TICKERS]) (by simp [List.lookup]) (by simp) (by simp)
      (by simp)⟩

/-- C12 as stated fails: with `GOOG = [0, 1, 2, 3, 4, 5]` and
`TSLA = [100, 101, 102, 103, 104, 110]` the only qualifying instrument is `TSLA`,
with percent change `10`, but the signal is `GOOG` with the percent
`Infinity`. -/
theorem trending_not_max_qualifying :
    specPercent [("GOOG", [0, 1, 2, 3, 4, 5]), ("TSLA", [100, 101, 102, 103, 104, 110])]
      "GOOG" = none ∧
    specPercent [("GOOG", [0, 1, 2, 3, 4, 5]), ("TSLA", [100, 101, 102, 103, 104, 110])]
      "TSLA" = some 10 ∧
    trending [("GOOG", [0, 1, 2, 3, 4, 5]), ("TSLA", [100, 101, 102, 103, 104, 110])]
      = some ⟨"GOOG", JsNum.posInf⟩ := by
  refine ⟨by simp [specPercent, List.lookup], ?_, ?_⟩
  · simp [specPercent, List.lookup]
    norm_num
  · simp [trending, trendingOver, TICKERS, trendStep, List.lookup, jsDiv, JsNum.times100,
      JsNum.gt, JsNum.toFixed2, fsub, fl_pos_iff, fl_neg_iff]

/-- C12, amended: for every history in which no listed instrument with at
least 6 samples has `old = 0` and a positive last sample, when the trending
computation returns a signal, its instrument occurs in the list, qualifies
with a percent change `m > 0`, every qualifying instrument listed before that
occurrence has a percent change strictly below `m` and every one listed after
it at most `m`, and the reported percent is the decimal that `m.toFixed(2)`
prints; the percent change of an instrument is the value of
`((cur - old) / old) * 100` in binary64 arithmetic, each operation rounded. -/
theorem trending_first_max (tickers : List String) (history : HistoryMap)
    (sig : TrendSignal)
    (hz : ∀ t ∈ tickers, ∀ h, history.lookup t = some h → 6 ≤ h.length →
      h.getD (h.length - 6) 0 = 0 → h.getD (h.length - 1) 0 ≤ 0)
    (hsig : trendingOver tickers history = some sig) :
    ∃ l1 l2 m, tickers = l1 ++ sig.ticker :: l2 ∧
      doublePercent history sig.ticker = some m ∧ 0 < m ∧
      (∀ u ∈ l1, ∀ v, doublePercent history u = some v → v < m) ∧
      (∀ u ∈ l2, ∀ v, doublePercent history u = some v → v ≤ m) ∧
      sig.pct = JsNum.fin (round2 m) := by
  have hinv := TrendInv_fold history tickers [] (none, JsNum.fin 0) (TrendInv_init history)
    (no_posInf_of_guarded tickers history hz)
  rw [List.nil_append] at hinv
  obtain ⟨m, hm, hcase⟩ := hinv
  simp only [trendingOver] at hsig
  cases hb : (tickers.foldl (trendStep history) (none, JsNum.fin 0)).1 with
  | none => rw [hb] at hsig; cases hsig
  | some b =>
    rw [hb] at hsig hcase
    by_cases hbe : b = ""
    · simp [hbe] at hsig
    · simp only [if_neg hbe, Option.some.injEq] at hsig
      obtain ⟨l1, l2, hd, hs, hpos, h1, h2⟩ := hcase
      subst hsig
      exact ⟨l1, l2, m, hd, hs, hpos, h1, h2, by simp only [hm, JsNum.toFixed2]⟩

/-- The percent change of `100 → 110` in binary64 arithmetic is `10`. -/
theorem percent_100_110 : fmul (fdiv (fsub 110 100) 100) 100 = 10 := by
  have a : fsub 110 100 = 10 := by
    unfold fsub
    rw [fl_of_int _ 10 (by norm_num) (by norm_num)]; norm_num
  have b : fdiv 10 100 = 3602879701896397 / 36028797018963968 := by
    unfold fdiv
    rw [fl_eq_pos (10 / 100) (-4) 7205759403792794 (by norm_num) (by norm_num)
      (by norm_num) (by norm_num)]
    norm_num
  have c : fmul (3602879701896397 / 36028797018963968) 100 = 10 := by
    unfold fmul
    rw [fl_eq_pos (3602879701896397 / 36028797018963968 * 100) 3 5629499534213120
      (by norm_num) (by norm_num) (by norm_num) (by norm_num)]
    norm_num
  rw [a, b, c]

/-- The model follows the rounding of the code: the percent change of
`160 → 183` in binary64 arithmetic is just below the exact `14.375`, so it
prints as `14.37`, whereas the exact value would print as `14.38`. -/
theorem percent_160_183 :
    round2 (fmul (fdiv (fsub 183 160) 160) 100) = 1437 / 100 ∧
    round2 ((183 - 160) / 160 * 100) = 1438 / 100 := by
  have a : fsub 183 160 = 23 := by
    unfold fsub
    rw [fl_of_int _ 23 (by norm_num) (by norm_num)]; norm_num
  have b : fdiv 23 160 = 5179139571476070 / 36028797018963968 := by
    unfold fdiv
    rw [fl_eq_pos (23 / 160) (-3) 5179139571476070 (by norm_num) (by norm_num)
      (by norm_num) (by norm_num)]
    norm_num
  have c : fmul (5179139571476070 / 36028797018963968) 100
      = 8092405580431359 / 562949953421312 := by
    unfold fmul
    rw [fl_eq_pos (5179139571476070 / 36028797018963968 * 100) 3 8092405580431359
      (by norm_num) (by norm_num) (by norm_num) (by norm_num)]
    norm_num
  constructor
  · rw [a, b, c]
    unfold round2
    rw [if_pos (by norm_num)]
    have hf : ⌊(8092405580431359 / 562949953421312 : ℚ) * 100 + 1 / 2⌋ = 1437 := by
      rw [Int.floor_eq_iff]; constructor <;> norm_num
    rw [hf]; norm_num
  · unfold round2
    rw [if_pos (by norm_num)]
    have hf : ⌊((183 - 160) / 160 * 100 : ℚ) * 100 + 1 / 2⌋ = 1438 := by
      rw [Int.floor_eq_iff]; constructor <;> norm_num
    rw [hf]; norm_num

/-- C12, amended, on the history `GOOG = [100, 101, 102, 103, 104, 110]`: the
signal is `GOOG` with `10.00`, and `GOOG` qualifies with the percent change
`10`. -/
theorem trending_first_max_witness :
    trending [("GOOG", [100, 101, 102, 103, 104, 110])] = some ⟨"GOOG", JsNum.fin 10⟩ ∧
    ∃ l1 l2 m, TICKERS = l1 ++ "GOOG" :: l2 ∧
      doublePercent [("GOOG", [100, 101, 102, 103, 104, 110])] "GOOG" = some m ∧ 0 < m ∧
      (∀ u ∈ l1, ∀ v,
        doublePercent [("GOOG", [100, 101, 102, 103, 104, 110])] u = some v → v < m) ∧
      (∀ u ∈ l2, ∀ v,
        doublePercent [("GOOG", [100, 101, 102, 103, 104, 110])] u = some v → v ≤ m) ∧
      JsNum.fin 10 = JsNum.fin (round2 m) := by
  have heval : trending [("GOOG", [100, 101, 102, 103, 104, 110])]
      = some ⟨"GOOG", JsNum.fin 10⟩ := by
    have e : round2 10 = 10 := round2_of_int 10 10 (by norm_num)
    have hne : ¬ ("GOOG" = "") := by decide
    simp [trending, trendingOver, TICKERS, trendStep, List.lookup, jsDiv, JsNum.times100,
      JsNum.gt, JsNum.toFixed2, percent_100_110, e, hne]
  refine ⟨heval, ?_⟩
  exact trending_first_max TICKERS [("GOOG", [100, 101, 102, 103, 104, 110])]
    ⟨"GOOG", JsNum.fin 10⟩ (by
      intro t ht h hl h6 h0
      simp only [TICKERS, List.mem_cons, List.mem_singleton, List.not_mem_nil,
        or_false] at ht
      rcases ht with rfl | rfl | rfl | rfl | rfl <;> simp [List.lookup] at hl
      subst hl
      simp at h0) heval

/-- C13 as stated fails: in the history `GOOG = [0, 0, 0, 0, 0, 5]` no listed
instrument has at least 6 samples and a non-zero `old`, so none of those has a
positive percent change, yet the computation returns `GOOG` with the percent
`Infinity`. -/
theorem trending_signal_without_positive :
    (∀ t ∈ TICKERS, ∀ v, specPercent [("GOOG", [0, 0, 0, 0, 0, 5])] t = some v → v ≤ 0) ∧
    trending [("GOOG", [0, 0, 0, 0, 0, 5])] = some ⟨"GOOG", JsNum.posInf⟩ := by
  constructor
  · intro t ht v hv
    simp only [TICKERS, List.mem_cons, List.mem_singleton, List.not_mem_nil,
      or_false] at ht
    rcases ht with rfl | rfl | rfl | rfl | rfl <;> simp [specPercent, List.lookup] at hv
  · simp [trending, trendingOver, TICKERS, trendStep, List.lookup, jsDiv, JsNum.times100,
      JsNum.gt, JsNum.toFixed2, fsub, fl_pos_iff, fl_neg_iff]

/-- C13, amended: for every history in which every listed instrument with at
least 6 samples and a non-zero `old` has a percent change at most `0`, and
every listed instrument with at least 6 samples and `old = 0` has a last
sample at most `0`, the trending computation returns no signal. -/
theorem trending_none_of_nonpositive (tickers : List String) (history : HistoryMap)
    (hnp : ∀ t ∈ tickers, ∀ v, specPercent history t = some v → v ≤ 0)
    (hz : ∀ t ∈ tickers, ∀ h, history.lookup t = some h → 6 ≤ h.length →
      h.getD (h.length - 6) 0 = 0 → h.getD (h.length - 1) 0 ≤ 0) :
    trendingOver tickers history = none := by
  have hinv := TrendInv_fold history tickers [] (none, JsNum.fin 0) (TrendInv_init history)
    (no_posInf_of_guarded tickers history hz)
  rw [List.nil_append] at hinv
  obtain ⟨m, hm, hcase⟩ := hinv
  simp only [trendingOver]
  cases hb : (tickers.foldl (trendStep history) (none, JsNum.fin 0)).1 with
  | none => rfl
  | some b =>
    rw [hb] at hcase
    obtain ⟨l1, l2, hd, hs, hpos, _, _⟩ := hcase
    have hbt : b ∈ tickers := by rw [hd]; simp
    obtain ⟨v, hv, hvpos⟩ := doublePercent_pos history b m hs hpos
    exact absurd (hnp b hbt v hv) (not_le.mpr hvpos)

/-- C13, amended, on the falling series `GOOG = [110, 104, 103, 102, 101, 100]`
and the flat series `TSLA = [50, 50, 50, 50, 50, 50]`: no signal. -/
theorem trending_none_of_nonpositive_witness :
    trendingOver TICKERS
      [("GOOG", [110, 104, 103, 102, 101, 100]), ("TSLA", [50, 50, 50, 50, 50, 50])]
      = none :=
  trending_none_of_nonpositive TICKERS
    [("GOOG", [110, 104, 103, 102, 101, 100]), ("TSLA", [50, 50, 50, 50, 50, 50])]
    (by
      intro t ht v hv
      simp only [TICKERS, List.mem_cons, List.mem_singleton, List.not_mem_nil,
        or_false] at ht
      rcases ht with rfl | rfl | rfl | rfl | rfl <;>
        simp [specPercent, List.lookup] at hv <;> (subst hv; norm_num))
    (by
      intro t ht h hl h6 h0
      simp only [TICKERS, List.mem_cons, List.mem_singleton, List.not_mem_nil,
        or_false] at ht
      rcases ht with rfl | rfl | rfl | rfl | rfl <;> simp [List.lookup] at hl <;>
        subst hl <;> simp at h0)

/-- C14: the loop skips every instrument whose series is absent or has fewer
than 6 samples (the variables `best` and `bestPct` are left unchanged), and
for every history in which every listed instrument has at most 5 samples the
trending computation returns no signal. -/
theorem trending_skips_short :
    (∀ (history : HistoryMap) (acc : Option String × JsNum) (t : String),
      (history.lookup t = none ∨ ∃ h, history.lookup t = some h ∧ h.length < 6) →
      trendStep history acc t = acc) ∧
    (∀ (tickers : List String) (history : HistoryMap),
      (∀ t ∈ tickers, ∀ h, history.lookup t = some h → h.length ≤ 5) →
      trendingOver tickers history = none) := by
  have hstep : ∀ (history : HistoryMap) (acc : Option String × JsNum) (t : String),
      (history.lookup t = none ∨ ∃ h, history.lookup t = some h ∧ h.length < 6) →
      trendStep history acc t = acc := by
    intro history acc t hs
    rcases hs with hl | ⟨h, hl, h6⟩
    · simp only [trendStep, hl]
    · simp only [trendStep, hl, if_pos h6]
  refine ⟨hstep, fun tickers history hall => ?_⟩
  have hfold : tickers.foldl (trendStep history) (none, JsNum.fin 0)
      = (none, JsNum.fin 0) := by
    refine foldl_skip_all history tickers _ (fun t ht a => hstep history a t ?_)
    cases hl : history.lookup t with
    | none => exact Or.inl rfl
    | some h => exact Or.inr ⟨h, rfl, by have := hall t ht h hl; omega⟩
  simp only [trendingOver, hfold]

/-- C14 on a history in which every instrument of `TICKERS` has 5 samples: no
signal. -/
theorem trending_skips_short_witness :
    trending [("GOOG", [1, 2, 3, 4, 5]), ("TSLA", [1, 2, 3, 4, 5]),
      ("AMZN", [1, 2, 3, 4, 5]), ("META", [1, 2, 3, 4, 5]), ("NVDA", [1, 2, 3, 4, 5])]
      = none :=
  trending_skips_short.2 TICKERS
    [("GOOG", [1, 2, 3, 4, 5]), ("TSLA", [1, 2, 3, 4, 5]),
      ("AMZN", [1, 2, 3, 4, 5]), ("META", [1, 2, 3, 4, 5]), ("NVDA", [1, 2, 3, 4, 5])]
    (by
      intro t ht h hl
      simp only [TICKERS, List.mem_cons, List.mem_singleton, List.not_mem_nil,
        or_false] at ht
      rcases ht with rfl | rfl | rfl | rfl | rfl <;> simp [List.lookup] at hl <;>
        subst hl <;> simp)

end Dashboard
